import Mathlib

/-!
Verification of the graph engine of the actor-collaboration analysis
program (`src/graph.rs`, `src/csv.rs`, `src/genre.rs`, `src/age.rs`).

The Rust source is shallowly embedded: adjacency lists become
`List (List Nat)`, `HashMap`s become association lists (iteration order is
the list order; a Rust `HashMap` iterated twice without modification yields
one fixed order, which the list models), `u32`/`i64` arithmetic is modelled
on `Nat`/`Int` with an explicit `% 2 ^ 32` at the one place the source
performs 32-bit wrapping (`distances.len() as u32` and the `u32` sum in
`bfs`).  Indexing `outedges[u]` in Rust fails loudly when `u` is out of
range; the embedding reads through `List.getD`/`getElem?` (a no-op / `none`
out of range) and every theorem about it carries the in-range hypotheses
under which the two semantics agree.
-/

namespace DS210

/-- Rust `Vec::dedup` (as called by `sort_graph_lists` in `graph.rs`):
remove *consecutive* duplicate elements of a list. -/
def dedupConsec : List Nat → List Nat
  | [] => []
  | [a] => [a]
  | a :: b :: rest =>
    if a = b then dedupConsec (b :: rest) else a :: dedupConsec (b :: rest)

/-- The graph of `graph.rs`: vertex labels in `0..n` plus adjacency lists. -/
structure Graph where
  n : Nat
  outedges : List (List Nat)
deriving DecidableEq, Repr

/-- Function `reverse_edges` of `graph.rs`: flip every pair of an edge list. -/
def reverse_edges (list : List (Nat × Nat)) : List (Nat × Nat) :=
  list.map (fun e => (e.2, e.1))

/-- Step `self.outedges[*u].push(*v)` of `Graph::add_directed_edges`.  In the
source an out-of-range `u` is a bounds failure; `List.set` leaves the list
unchanged there, and all results about it assume the endpoints in range. -/
def pushAdj (ls : List (List Nat)) (u v : Nat) : List (List Nat) :=
  ls.set u (ls.getD u [] ++ [v])

/-- The loop of `Graph::add_directed_edges`: walk the edge list keeping the
`seen` set (modelled as the list of pairs already inserted), pushing each
not-yet-seen edge `(u, v)` onto `outedges[u]`. -/
def addEdgesAux : List (Nat × Nat) → List (Nat × Nat) → List (List Nat) → List (List Nat)
  | _, [], ls => ls
  | seen, (u, v) :: rest, ls =>
    if (u, v) ∈ seen then addEdgesAux seen rest ls
    else addEdgesAux ((u, v) :: seen) rest (pushAdj ls u v)

/-- Method `Graph::add_directed_edges` (`graph.rs` lines 32-39). -/
def Graph.add_directed_edges (g : Graph) (edges : List (Nat × Nat)) : Graph :=
  { g with outedges := addEdgesAux [] edges g.outedges }

/-- Method `Graph::sort_graph_lists` (`graph.rs` lines 43-48): sort every adjacency
list, then remove consecutive duplicates.  Rust `slice::sort` is a stable
sort keyed by `≤`; on `Nat` every sorting algorithm yields the unique sorted
permutation, here written with `List.insertionSort`. -/
def Graph.sort_graph_lists (g : Graph) : Graph :=
  { g with outedges := g.outedges.map (fun l => dedupConsec (l.insertionSort (· ≤ ·))) }

/-- Method `Graph::create_directed` (`graph.rs` lines 53-61). -/
def Graph.create_directed (n : Nat) (edges : List (Nat × Nat)) : Graph :=
  ((Graph.mk n (List.replicate n [])).add_directed_edges edges).sort_graph_lists

/-- Method `Graph::create_undirected` (`graph.rs` lines 67-72): directed graph,
then add every reversed edge, then re-sort and deduplicate. -/
def Graph.create_undirected (n : Nat) (edges : List (Nat × Nat)) : Graph :=
  ((Graph.create_directed n edges).add_directed_edges (reverse_edges edges)).sort_graph_lists

/-- Read the adjacency list of vertex `u` (`self.outedges[u]`). -/
def Graph.adjOf (g : Graph) (u : Nat) : List Nat :=
  g.outedges.getD u []

/-- The data-model invariant of §3 of the spec: `n` adjacency lists and
every stored neighbour a dense index below `n`. -/
def Graph.wellFormed (g : Graph) : Prop :=
  g.outedges.length = g.n ∧ ∀ l ∈ g.outedges, ∀ v ∈ l, v < g.n

instance (g : Graph) : Decidable g.wellFormed := by
  unfold Graph.wellFormed; infer_instance

/-- Count of unvisited (`None`) entries of a distance vector; the
termination measure of the BFS queue loop. -/
def noneCount (dist : List (Option Nat)) : Nat :=
  dist.countP (fun o => o.isNone)

/-- The inner neighbour loop of `Graph::bfs` (`graph.rs` lines 95-100):
for each neighbour `u` of the popped vertex (whose distance is `dv`), if
`distance[u]` is `None`, set it to `dv + 1` and push `u`.  Returns the
updated distance vector and the list of pushed vertices in push order.
`distance[u]` is read through `getElem?`; in Rust an out-of-range neighbour
is a bounds failure, which the in-range hypotheses of the theorems rule
out. -/
def processNeighbors (dv : Nat) : List Nat → List (Option Nat) → List (Option Nat) × List Nat
  | [], dist => (dist, [])
  | u :: rest, dist =>
    match dist[u]? with
    | some none =>
      let r := processNeighbors dv rest (dist.set u (some (dv + 1)))
      (r.1, u :: r.2)
    | _ => processNeighbors dv rest dist

/-- The `while let Some(v) = queue.pop_front()` loop of `Graph::bfs`
(`graph.rs` lines 94-101), with an explicit fuel argument for structural
recursion.  Each iteration pops one vertex and every push turns a `None`
distance entry into `Some`, so `noneCount dist + queue.length` strictly
decreases, so fuel equal to the initial measure (`n`, see `Graph.bfsFrom`)
runs the loop to its true final state: the queue empties before the fuel
does (`bfsLoopF_inv` is proved under exactly that measure bound).  The
fall-through branch for a queued vertex with no assigned distance models
the source's `distance[v].unwrap()` call site; the loop invariant
(`BfsInv.qassigned`) proves it unreachable. -/
def bfsLoopF (g : Graph) : Nat → List (Option Nat) → List Nat → List (Option Nat)
  | _, dist, [] => dist
  | 0, dist, _ :: _ => dist
  | fuel + 1, dist, v :: rest =>
    match dist[v]? with
    | some (some dv) =>
      bfsLoopF g fuel (processNeighbors dv (g.adjOf v) dist).1
        (rest ++ (processNeighbors dv (g.adjOf v) dist).2)
    | _ => bfsLoopF g fuel dist rest

/-- One source iteration of `Graph::bfs` (`graph.rs` lines 82-101): start
from `distance = [None; n]` with `distance[s] = Some(0)` and the queue
`[s]`.  The initial measure is exactly `n`, which is passed as fuel. -/
def Graph.bfsFrom (g : Graph) (s : Nat) : List (Option Nat) :=
  bfsLoopF g g.n ((List.replicate g.n (none : Option Nat)).set s (some 0)) [s]

/-- Method `Graph::bfs` (`graph.rs` lines 77-121): one full BFS from every vertex,
collecting `(source, target, distance)` records for assigned targets in
increasing target order, then the truncating `u32` average.  The `% 2 ^ 32`
mirrors the `u32` sum of distances and the `as u32` cast of the record
count in the source. -/
def Graph.bfs (g : Graph) : List (Nat × Nat × Nat) × Nat :=
  let distances := (List.range g.n).flatMap (fun s =>
    (List.range g.n).filterMap (fun v =>
      match (g.bfsFrom s).getD v none with
      | some d => some (s, v, d)
      | none => none))
  let total := (distances.map (fun r => r.2.2)).sum % 4294967296
  (distances, if distances.isEmpty then 0 else total / (distances.length % 4294967296))

/-- Relation `ReachN g s v k`: there is a walk of exactly `k` hops from `s` to `v`
along the adjacency lists.  The shortest-path hop count from `s` to `v` is
the least such `k`. -/
inductive ReachN (g : Graph) (s : Nat) : Nat → Nat → Prop
  | refl : ReachN g s s 0
  | step {v u k} : ReachN g s v k → u ∈ g.adjOf v → ReachN g s u (k + 1)

/-- The distance value the BFS code reads out of a `Some` entry. -/
def distVal (dist : List (Option Nat)) (v : Nat) : Nat :=
  (dist.getD v none).getD 0

/-- The loop invariant of one single-source BFS of `Graph::bfs`: the queue
holds assigned in-range vertices in nondecreasing distance order, every
assigned distance is at most one more than any queued distance, every
assigned vertex is queued or has all neighbours assigned within `+1`, and
every assigned distance is realised by a walk from `s`. -/
structure BfsInv (g : Graph) (s : Nat) (dist : List (Option Nat))
    (queue : List Nat) : Prop where
  len : dist.length = g.n
  qlt : ∀ v ∈ queue, v < g.n
  qassigned : ∀ v ∈ queue, (dist.getD v none).isSome
  qsorted : (queue.map (distVal dist)).Sorted (· ≤ ·)
  bound : ∀ u du, dist.getD u none = some du → ∀ w ∈ queue, du ≤ distVal dist w + 1
  closed : ∀ v dv, dist.getD v none = some dv → v ∈ queue ∨
    ∀ u ∈ g.adjOf v, ∃ du, dist.getD u none = some du ∧ du ≤ dv + 1
  sound : ∀ v dv, dist.getD v none = some dv → ReachN g s v dv

/-- The per-source record list of `Graph::bfs` (`graph.rs` lines 104-108):
one record `(s, v, d)` for each `v` in `0..n` whose distance entry is
assigned, in increasing `v` order. -/
def bfsRecordsFrom (g : Graph) (s : Nat) : List (Nat × Nat × Nat) :=
  (List.range g.n).filterMap (fun v =>
    match (g.bfsFrom s).getD v none with
    | some d => some (s, v, d)
    | none => none)

/-- Type `ColumnVal` of `csv.rs`.  The `f64` payload of `Three` is modelled by
its bit pattern as a `Nat`: the source never compares, orders, hashes or
stringifies a `Three` on any path a claim mentions (its `Hash` impl is an
explicit runtime panic), so only the kind tag matters here. -/
inductive ColumnVal
  | One (s : String)
  | Two (n : Int)
  | Three (bits : Nat)
deriving DecidableEq, Repr

/-- Impl `PartialEq for ColumnVal` (`csv.rs` lines 18-26): componentwise on
`One`/`Two`, `false` for `Three` or mixed kinds. -/
def cvEq : ColumnVal → ColumnVal → Bool
  | .One a, .One b => a == b
  | .Two a, .Two b => a == b
  | _, _ => false

/-- Impl `Ord for ColumnVal` (`csv.rs` lines 32-39): integer comparison on
`Two`/`Two`, `Equal` for every other combination. -/
def cvCmp : ColumnVal → ColumnVal → Ordering
  | .Two a, .Two b => compare a b
  | _, _ => .eq

/-- Impl `Hash for ColumnVal` (`csv.rs` lines 49-65).  The hasher state is the
list of absorbed words (a tag byte then the payload); the `Three` arm of
the source is a runtime panic, modelled as `none`. -/
def cvHash : ColumnVal → List Int → Option (List Int)
  | .One s, st => some (st ++ 1 :: s.data.map (fun c => (c.toNat : Int)))
  | .Two n, st => some (st ++ [2, n])
  | .Three _, _ => none

/-- Impl `Display for ColumnVal` (`csv.rs` lines 68-76) restricted to the two
hashable kinds; the float rendering of `Three` is not modelled (no claim
reaches it: a `Three` key cannot enter a `HashMap`, since hashing it
panics). -/
def cvToString : ColumnVal → String
  | .One s => s
  | .Two n => toString n
  | .Three _ => ""

/-- The `actor_to_index.get(..)` lookup of `hash_graph`: first entry with a
matching name, if any. -/
def lookupStr (s : String) (m : List (String × Nat)) : Option Nat :=
  (m.find? (fun p => p.1 == s)).map (fun p => p.2)

/-- The first loop of `hash_graph` (`graph.rs` lines 195-201): assign each
distinct key string the next dense index.  The source's running `index`
counter always equals the map size, since it is bumped exactly on
insertion. -/
def actorToIndex (hash : List (ColumnVal × List String)) : List (String × Nat) :=
  hash.foldl (fun acc p =>
    match lookupStr (cvToString p.1) acc with
    | some _ => acc
    | none => acc ++ [(cvToString p.1, acc.length)]) []

/-- The second loop of `hash_graph` (`graph.rs` lines 204-212): for every
key and every friend name, record the index pair when both resolve. -/
def connectionsOf (hash : List (ColumnVal × List String))
    (a2i : List (String × Nat)) : List (Nat × Nat) :=
  hash.flatMap (fun p =>
    match lookupStr (cvToString p.1) a2i with
    | some ai => p.2.filterMap (fun friend =>
        (lookupStr friend a2i).map (fun fi => (ai, fi)))
    | none => [])

/-- Function `hash_graph` (`graph.rs` lines 189-218). -/
def hash_graph (hash : List (ColumnVal × List String)) : Graph :=
  Graph.create_undirected (actorToIndex hash).length
    (connectionsOf hash (actorToIndex hash))

/-- The `hash.get(&key)` lookup used by the cohort code (`genre.rs` line 81,
`age.rs` line 122): association-list lookup under the source's
`PartialEq`. -/
def lookupCv (k : ColumnVal) (m : List (ColumnVal × List String)) :
    Option (List String) :=
  (m.find? (fun p => cvEq p.1 k)).map (fun p => p.2)

/-- Operation `HashMap::insert` on the association-list model: replace the value of
the first matching key, or append a fresh entry. -/
def insertCv (k : ColumnVal) (v : List String)
    (m : List (ColumnVal × List String)) : List (ColumnVal × List String) :=
  if m.any (fun p => cvEq p.1 k) then
    m.map (fun p => if cvEq p.1 k then (p.1, v) else p)
  else m ++ [(k, v)]

/-- The per-cohort restriction loop (`genre.rs` lines 78-84): for each
cohort member found in the global mapping, insert it with its unmodified
neighbour list. -/
def restrictToCohort (all : List (ColumnVal × List String))
    (actors : List ColumnVal) : List (ColumnVal × List String) :=
  actors.foldl (fun acc a =>
    match lookupCv a all with
    | some cs => insertCv a cs acc
    | none => acc) []

/-- Function `build_connections` of `age.rs` (lines 115-127): the same restriction
keyed by `ColumnVal::One` of each member name. -/
def build_connections (group : List (String × Option ColumnVal))
    (all : List (ColumnVal × List String)) : List (ColumnVal × List String) :=
  group.foldl (fun acc p =>
    match lookupCv (ColumnVal.One p.1) all with
    | some cs => insertCv (ColumnVal.One p.1) cs acc
    | none => acc) []

/-- The loop of `genres_bfs` (`genre.rs` lines 77-89) over an already
extracted cohort list (the `genre(&data)` cohort extraction is attribute
derivation, external to the graph core per §1 of the spec): each cohort
label is bound to the restricted mapping, its graph, and that graph's BFS
records and average. -/
def genresBfsCore (cohorts : List (String × List ColumnVal))
    (hash : List (ColumnVal × List String)) :
    List (String × (List (ColumnVal × List String) × Graph ×
      List (Nat × Nat × Nat) × Nat)) :=
  cohorts.map (fun c =>
    (c.1, (restrictToCohort hash c.2, hash_graph (restrictToCohort hash c.2),
      ((hash_graph (restrictToCohort hash c.2)).bfs).1,
      ((hash_graph (restrictToCohort hash c.2)).bfs).2)))

/-- Function `extract_val` of `age.rs` (lines 56-69): pull the integer out of an age
tuple, failing on a missing/mis-shaped value and on a value outside the
`i32` range; an in-range value is returned unchanged (`val as i32` after
the range check is exact). -/
def extract_val (opt : Option (String × Option ColumnVal)) : Except String Int :=
  match opt with
  | some (_, some (ColumnVal.Two v)) =>
    if -2147483648 ≤ v ∧ v ≤ 2147483647 then Except.ok v
    else Except.error "Value out of i32 range"
  | _ => Except.error "Expected ColumnVal::Two or missing value"

/-- Call `.unwrap_or_default()` applied to `extract_val` at the call sites of
`ages_bfs` (`age.rs` lines 148-163): an error becomes the `i32` default
`0`. -/
def extract_val_or_default (opt : Option (String × Option ColumnVal)) : Int :=
  match extract_val opt with
  | Except.ok v => v
  | Except.error _ => 0

/-- The age an entry sorts by.  The `sort_by` comparator of `ages_bfs`
(`age.rs` lines 98-101) compares the `Two` payloads and returns `Equal` for
any other shape; the sort runs on the list already filtered to positive
`Two` ages (line 93-96), where this key function coincides with the
comparator. -/
def ageKey (p : String × Option ColumnVal) : Int :=
  match p.2 with
  | some (ColumnVal.Two v) => v
  | _ => 0

/-- The sort relation of the age sort: nondecreasing age. -/
def ageLe (p q : String × Option ColumnVal) : Prop :=
  ageKey p ≤ ageKey q

instance : DecidableRel ageLe :=
  fun p q => inferInstanceAs (Decidable (ageKey p ≤ ageKey q))

instance : IsTotal (String × Option ColumnVal) ageLe :=
  ⟨fun p q => Int.le_total (ageKey p) (ageKey q)⟩

instance : IsTrans (String × Option ColumnVal) ageLe :=
  ⟨fun _ _ _ h1 h2 => le_trans h1 h2⟩

/-- Lines 93-101 of `age.rs`: keep the entries with a positive `Two` age,
then sort ascending by age (Rust's stable `sort_by`, written with the
stable `insertionSort`). -/
def agesFilterSort (aa : List (String × Option ColumnVal)) :
    List (String × Option ColumnVal) :=
  (aa.filter (fun p => match p.2 with
    | some (ColumnVal.Two v) => decide (0 < v)
    | _ => false)).insertionSort ageLe

/-- Lines 103-109 of `age.rs`: `q = total / 4` and the four contiguous
slices `[0..q]`, `[q..2q]`, `[2q..3q]`, `[3q..]`. -/
def agesQuartiles (aa : List (String × Option ColumnVal)) :
    List (String × Option ColumnVal) × List (String × Option ColumnVal) ×
      List (String × Option ColumnVal) × List (String × Option ColumnVal) :=
  ((agesFilterSort aa).take ((agesFilterSort aa).length / 4),
    (((agesFilterSort aa).drop ((agesFilterSort aa).length / 4)).take
      ((agesFilterSort aa).length / 4)),
    (((agesFilterSort aa).drop (2 * ((agesFilterSort aa).length / 4))).take
      ((agesFilterSort aa).length / 4)),
    (agesFilterSort aa).drop (3 * ((agesFilterSort aa).length / 4)))

/-- The `(min, max)` report of one bracket (`age.rs` lines 148-163):
`extract_val` of the first and last entries, errors defaulted to `0`. -/
def boundariesOf (group : List (String × Option ColumnVal)) : Int × Int :=
  (extract_val_or_default group.head?, extract_val_or_default group.getLast?)

/-- The spec's concrete quartile scenario: 8 entities with attributes
`5, 10, ..., 40`. -/
def agesExample8 : List (String × Option ColumnVal) :=
  [("a", some (ColumnVal.Two 5)), ("b", some (ColumnVal.Two 10)),
    ("c", some (ColumnVal.Two 15)), ("d", some (ColumnVal.Two 20)),
    ("e", some (ColumnVal.Two 25)), ("f", some (ColumnVal.Two 30)),
    ("g", some (ColumnVal.Two 35)), ("h", some (ColumnVal.Two 40))]

theorem mem_dedupConsec : ∀ (l : List Nat) (x : Nat), x ∈ dedupConsec l ↔ x ∈ l
  | [], x => by simp [dedupConsec]
  | [a], x => by simp [dedupConsec]
  | a :: b :: rest, x => by
    by_cases h : a = b
    · subst h
      have hstep : dedupConsec (a :: a :: rest) = dedupConsec (a :: rest) := by
        simp [dedupConsec]
      rw [hstep, mem_dedupConsec (a :: rest) x]
      simp only [List.mem_cons]
      tauto
    · simp only [dedupConsec, if_neg h, List.mem_cons, mem_dedupConsec (b :: rest) x]

theorem dedupConsec_sorted :
    ∀ l : List Nat, l.Sorted (· ≤ ·) → (dedupConsec l).Sorted (· < ·)
  | [], _ => by simp [dedupConsec]
  | [a], _ => by simp [dedupConsec]
  | a :: b :: rest, hs => by
    have htail : (b :: rest).Sorted (· ≤ ·) := hs.of_cons
    have hab : a ≤ b := List.rel_of_sorted_cons hs b (by simp)
    by_cases h : a = b
    · simpa [dedupConsec, if_pos h] using dedupConsec_sorted (b :: rest) htail
    · have hlt : a < b := lt_of_le_of_ne hab h
      simp only [dedupConsec, if_neg h]
      rw [List.sorted_cons]
      refine ⟨?_, dedupConsec_sorted (b :: rest) htail⟩
      intro c hc
      rw [mem_dedupConsec] at hc
      rcases List.mem_cons.1 hc with rfl | hc'
      · exact hlt
      · exact lt_of_lt_of_le hlt (List.rel_of_sorted_cons htail c hc')

theorem getD_eq_getElem? (ls : List (List Nat)) (u : Nat) :
    ls.getD u [] = (ls[u]?).getD [] :=
  List.getD_eq_getElem?_getD ls u []

theorem pushAdj_length (ls : List (List Nat)) (u v : Nat) :
    (pushAdj ls u v).length = ls.length :=
  List.length_set ls u _

theorem pushAdj_getD (ls : List (List Nat)) (u v w : Nat) :
    (pushAdj ls u v).getD w [] =
      if u = w ∧ u < ls.length then ls.getD u [] ++ [v] else ls.getD w [] := by
  unfold pushAdj
  rw [getD_eq_getElem?, List.getElem?_set]
  by_cases h : u = w
  · subst h
    by_cases h2 : u < ls.length
    · simp [h2]
    · have : ls[u]? = none := List.getElem?_eq_none (Nat.le_of_not_lt h2)
      simp [h2, getD_eq_getElem?, this]
  · simp [h, getD_eq_getElem?]

theorem addEdgesAux_length :
    ∀ (edges seen : List (Nat × Nat)) (ls : List (List Nat)),
      (addEdgesAux seen edges ls).length = ls.length
  | [], _, _ => rfl
  | (a, b) :: rest, seen, ls => by
    by_cases h : (a, b) ∈ seen
    · simp only [addEdgesAux, if_pos h]
      exact addEdgesAux_length rest seen ls
    · simp only [addEdgesAux, if_neg h]
      rw [addEdgesAux_length rest _ _, pushAdj_length]

theorem addEdgesAux_getD_mem :
    ∀ (edges seen : List (Nat × Nat)) (ls : List (List Nat)) (u v : Nat),
      v ∈ (addEdgesAux seen edges ls).getD u [] ↔
        v ∈ ls.getD u [] ∨ ((u, v) ∈ edges ∧ (u, v) ∉ seen ∧ u < ls.length)
  | [], seen, ls, u, v => by simp [addEdgesAux]
  | (a, b) :: rest, seen, ls, u, v => by
    by_cases hseen : (a, b) ∈ seen
    · simp only [addEdgesAux, if_pos hseen]
      rw [addEdgesAux_getD_mem rest seen ls u v]
      constructor
      · rintro (h | ⟨h1, h2, h3⟩)
        · exact Or.inl h
        · exact Or.inr ⟨List.mem_cons_of_mem _ h1, h2, h3⟩
      · rintro (h | ⟨h1, h2, h3⟩)
        · exact Or.inl h
        · rcases List.mem_cons.1 h1 with heq | h1'
          · exact absurd (heq ▸ hseen) h2
          · exact Or.inr ⟨h1', h2, h3⟩
    · simp only [addEdgesAux, if_neg hseen]
      rw [addEdgesAux_getD_mem rest _ _ u v, pushAdj_getD, pushAdj_length]
      have hpair : ((u, v) = (a, b)) ↔ (u = a ∧ v = b) := by
        constructor
        · intro h; injection h with h1 h2; exact ⟨h1, h2⟩
        · rintro ⟨rfl, rfl⟩; rfl
      by_cases hc : a = u ∧ a < ls.length
      · rw [if_pos hc]
        obtain ⟨rfl, halt⟩ := hc
        have hsplit : ∀ w : Nat, w ∈ ls.getD a [] ++ [b] ↔ w ∈ ls.getD a [] ∨ w = b := by
          intro w; simp
        rw [hsplit, List.mem_cons, List.mem_cons, hpair]
        by_cases hvb : v = b
        · subst hvb
          have htriv : (a = a ∧ v = v) := ⟨rfl, rfl⟩
          tauto
        · tauto
      · rw [if_neg hc]
        rw [List.mem_cons, List.mem_cons, hpair]
        by_cases hp : u = a ∧ v = b
        · obtain ⟨rfl, rfl⟩ := hp
          have hnl : ¬ u < ls.length := fun hl => hc ⟨rfl, hl⟩
          tauto
        · tauto

theorem add_directed_edges_adj (g : Graph) (edges : List (Nat × Nat)) (u v : Nat) :
    v ∈ (g.add_directed_edges edges).adjOf u ↔
      v ∈ g.adjOf u ∨ ((u, v) ∈ edges ∧ u < g.outedges.length) := by
  unfold Graph.add_directed_edges Graph.adjOf
  rw [addEdgesAux_getD_mem]
  simp

theorem add_directed_edges_length (g : Graph) (edges : List (Nat × Nat)) :
    (g.add_directed_edges edges).outedges.length = g.outedges.length :=
  addEdgesAux_length edges [] g.outedges

theorem sort_graph_lists_adj (g : Graph) (u v : Nat) :
    v ∈ (g.sort_graph_lists).adjOf u ↔ v ∈ g.adjOf u := by
  unfold Graph.sort_graph_lists Graph.adjOf
  rw [getD_eq_getElem?, getD_eq_getElem?, List.getElem?_map]
  cases h : g.outedges[u]? with
  | none => simp
  | some l => simp [mem_dedupConsec]

theorem sort_graph_lists_length (g : Graph) :
    (g.sort_graph_lists).outedges.length = g.outedges.length := by
  unfold Graph.sort_graph_lists
  exact List.length_map _ _

theorem create_directed_length (n : Nat) (edges : List (Nat × Nat)) :
    (Graph.create_directed n edges).outedges.length = n := by
  unfold Graph.create_directed
  rw [sort_graph_lists_length, add_directed_edges_length, List.length_replicate]

theorem create_directed_adj (n : Nat) (edges : List (Nat × Nat)) (u v : Nat) :
    v ∈ (Graph.create_directed n edges).adjOf u ↔ (u, v) ∈ edges ∧ u < n := by
  unfold Graph.create_directed
  rw [sort_graph_lists_adj, add_directed_edges_adj]
  have hrep : (Graph.mk n (List.replicate n [])).adjOf u = [] := by
    unfold Graph.adjOf
    rw [getD_eq_getElem?]
    cases h : (List.replicate n ([] : List Nat))[u]? with
    | none => rfl
    | some l =>
      rw [List.getElem?_replicate] at h
      by_cases hu : u < n
      · simp [hu] at h; simp [h]
      · simp [hu] at h
  rw [hrep]
  simp [List.length_replicate]

theorem mem_reverse_edges (edges : List (Nat × Nat)) (u v : Nat) :
    (u, v) ∈ reverse_edges edges ↔ (v, u) ∈ edges := by
  unfold reverse_edges
  rw [List.mem_map]
  constructor
  · rintro ⟨⟨x, y⟩, hm, heq⟩
    injection heq with h1 h2
    subst h1; subst h2
    exact hm
  · intro h
    exact ⟨(v, u), h, rfl⟩

theorem create_undirected_length (n : Nat) (edges : List (Nat × Nat)) :
    (Graph.create_undirected n edges).outedges.length = n := by
  unfold Graph.create_undirected
  rw [sort_graph_lists_length, add_directed_edges_length, create_directed_length]

theorem create_undirected_adj (n : Nat) (edges : List (Nat × Nat)) (u v : Nat) :
    v ∈ (Graph.create_undirected n edges).adjOf u ↔
      ((u, v) ∈ edges ∨ (v, u) ∈ edges) ∧ u < n := by
  unfold Graph.create_undirected
  rw [sort_graph_lists_adj, add_directed_edges_adj, create_directed_adj,
    create_directed_length, mem_reverse_edges]
  tauto

theorem create_undirected_n (n : Nat) (edges : List (Nat × Nat)) :
    (Graph.create_undirected n edges).n = n := rfl

theorem adjOf_mem_outedges (g : Graph) (u : Nat) (h : u < g.outedges.length) :
    g.adjOf u ∈ g.outedges := by
  unfold Graph.adjOf
  rw [getD_eq_getElem?, List.getElem?_eq_getElem h]
  exact List.getElem_mem h

theorem mem_outedges_adjOf (g : Graph) (l : List Nat) (h : l ∈ g.outedges) :
    ∃ u, u < g.outedges.length ∧ g.adjOf u = l := by
  obtain ⟨i, hi, hl⟩ := List.mem_iff_getElem.1 h
  refine ⟨i, hi, ?_⟩
  unfold Graph.adjOf
  rw [getD_eq_getElem?, List.getElem?_eq_getElem hi, hl]
  rfl

theorem create_undirected_wellFormed (n : Nat) (edges : List (Nat × Nat))
    (hb : ∀ e ∈ edges, e.1 < n ∧ e.2 < n) :
    (Graph.create_undirected n edges).wellFormed := by
  constructor
  · rw [create_undirected_length]; rfl
  · intro l hl v hv
    obtain ⟨u, hu, rfl⟩ := mem_outedges_adjOf _ _ hl
    rw [create_undirected_adj] at hv
    rcases hv.1 with h | h
    · exact (hb _ h).2
    · exact (hb _ h).1

/-- Claim C3. For every `n` and every edge list whose endpoints are all below
`n`, the graph returned by `Graph::create_undirected` satisfies the symmetry
invariant: for all vertices `u` and `v`, `v ∈ outedges[u] ↔ u ∈ outedges[v]`. -/
theorem create_undirected_symm (n : Nat) (edges : List (Nat × Nat))
    (hb : ∀ e ∈ edges, e.1 < n ∧ e.2 < n) (u v : Nat) :
    v ∈ (Graph.create_undirected n edges).adjOf u ↔
      u ∈ (Graph.create_undirected n edges).adjOf v := by
  rw [create_undirected_adj, create_undirected_adj]
  constructor
  · rintro ⟨h | h, _⟩
    · exact ⟨Or.inr h, (hb _ h).2⟩
    · exact ⟨Or.inl h, (hb _ h).1⟩
  · rintro ⟨h | h, _⟩
    · exact ⟨Or.inr h, (hb _ h).2⟩
    · exact ⟨Or.inl h, (hb _ h).1⟩

/-- Witness for C3 at the concrete input `n = 2`, `edges = [(0, 1)]`. -/
theorem create_undirected_symm_witness :
    (∀ e ∈ [((0 : Nat), (1 : Nat))], e.1 < 2 ∧ e.2 < 2) ∧
      (1 ∈ (Graph.create_undirected 2 [(0, 1)]).adjOf 0 ↔
        0 ∈ (Graph.create_undirected 2 [(0, 1)]).adjOf 1) :=
  ⟨by decide, create_undirected_symm 2 [(0, 1)] (by decide) 0 1⟩

/-- Claim C4. For every `n` and every edge list whose endpoints are all below
`n`, `Graph::create_directed` allocates exactly `n` adjacency lists, each
adjacency list of the result is sorted ascending and free of duplicates, and
every duplicate `(u, v)` pair of the input is collapsed to one occurrence:
`v` occurs in `outedges[u]` exactly once when `(u, v)` is an input edge
(however many times) and never otherwise.  The endpoint bound is the
hypothesis under which the source's `outedges[*u]` indexing is in range
(out of range it is a bounds failure, not a silent drop). -/
theorem create_directed_spec (n : Nat) (edges : List (Nat × Nat))
    (_hb : ∀ e ∈ edges, e.1 < n ∧ e.2 < n) :
    (Graph.create_directed n edges).outedges.length = n ∧
      (∀ l ∈ (Graph.create_directed n edges).outedges,
        l.Sorted (· ≤ ·) ∧ l.Nodup) ∧
      (∀ u v, ((Graph.create_directed n edges).adjOf u).count v =
        if (u, v) ∈ edges ∧ u < n then 1 else 0) := by
  refine ⟨create_directed_length n edges, ?_, ?_⟩
  · intro l hl
    have : ∃ l' : List Nat, l = dedupConsec (List.insertionSort (· ≤ ·) l') := by
      unfold Graph.create_directed Graph.sort_graph_lists at hl
      simp only [List.mem_map] at hl
      obtain ⟨l', _, rfl⟩ := hl
      exact ⟨l', rfl⟩
    obtain ⟨l', rfl⟩ := this
    have hsorted : (l'.insertionSort (· ≤ ·)).Sorted (· ≤ ·) :=
      List.sorted_insertionSort _ l'
    have hlt := dedupConsec_sorted _ hsorted
    exact ⟨hlt.imp le_of_lt, hlt.nodup⟩
  · intro u v
    have hmem := create_directed_adj n edges u v
    have hnodup : ((Graph.create_directed n edges).adjOf u).Nodup := by
      by_cases hu : u < (Graph.create_directed n edges).outedges.length
      · have hl := adjOf_mem_outedges _ u hu
        have : ∃ l' : List Nat, (Graph.create_directed n edges).adjOf u =
            dedupConsec (List.insertionSort (· ≤ ·) l') := by
          unfold Graph.create_directed Graph.sort_graph_lists at hl ⊢
          simp only [List.mem_map] at hl
          obtain ⟨l', hl', heq⟩ := hl
          exact ⟨l', heq.symm⟩
        obtain ⟨l', heq⟩ := this
        rw [heq]
        exact (dedupConsec_sorted _ (List.sorted_insertionSort _ l')).nodup
      · unfold Graph.adjOf
        rw [getD_eq_getElem?, List.getElem?_eq_none (Nat.le_of_not_lt hu)]
        exact List.nodup_nil
    by_cases h : (u, v) ∈ edges ∧ u < n
    · rw [if_pos h]
      have hv : v ∈ (Graph.create_directed n edges).adjOf u := hmem.2 h
      exact List.count_eq_one_of_mem hnodup hv
    · rw [if_neg h]
      exact List.count_eq_zero.2 (fun hv => h (hmem.1 hv))

/-- Witness for C4 at the concrete input `n = 3`,
`edges = [(0, 1), (0, 1), (1, 2)]` (a duplicated edge). -/
theorem create_directed_spec_witness :
    (∀ e ∈ [((0 : Nat), (1 : Nat)), (0, 1), (1, 2)], e.1 < 3 ∧ e.2 < 3) ∧
      ((Graph.create_directed 3 [(0, 1), (0, 1), (1, 2)]).outedges.length = 3 ∧
        (∀ l ∈ (Graph.create_directed 3 [(0, 1), (0, 1), (1, 2)]).outedges,
          l.Sorted (· ≤ ·) ∧ l.Nodup) ∧
        (∀ u v, ((Graph.create_directed 3 [(0, 1), (0, 1), (1, 2)]).adjOf u).count v =
          if (u, v) ∈ [((0 : Nat), (1 : Nat)), (0, 1), (1, 2)] ∧ u < 3 then 1 else 0)) :=
  ⟨by decide, create_directed_spec 3 [(0, 1), (0, 1), (1, 2)] (by decide)⟩

theorem ReachN.lt_n {g : Graph} (wf : g.wellFormed) {s v k : Nat} (hs : s < g.n)
    (h : ReachN g s v k) : v < g.n := by
  induction h with
  | refl => exact hs
  | step hr hadj ih =>
    rename_i w u k'
    have hw : g.adjOf w ∈ g.outedges := adjOf_mem_outedges g w (wf.1 ▸ ih)
    exact wf.2 _ hw _ hadj

theorem lt_of_getElem?_some {α : Type} {l : List α} {u : Nat} {a : α}
    (h : l[u]? = some a) : u < l.length := by
  by_contra hn
  rw [List.getElem?_eq_none (Nat.le_of_not_lt hn)] at h
  exact Option.noConfusion h

theorem optGetD (dist : List (Option Nat)) (u : Nat) :
    dist.getD u none = (dist[u]?).getD none :=
  List.getD_eq_getElem?_getD dist u none

theorem setSome_getD (dist : List (Option Nat)) (u w x : Nat) :
    (dist.set u (some x)).getD w none =
      if u = w ∧ u < dist.length then some x else dist.getD w none := by
  rw [optGetD, List.getElem?_set]
  by_cases h : u = w
  · subst h
    by_cases h2 : u < dist.length
    · simp [h2]
    · have : dist[u]? = none := List.getElem?_eq_none (Nat.le_of_not_lt h2)
      simp [h2, optGetD, this]
  · simp [h, optGetD]

theorem processNeighbors_cons_set (dv u : Nat) (rest : List Nat)
    (dist : List (Option Nat)) (h : dist[u]? = some none) :
    processNeighbors dv (u :: rest) dist =
      ((processNeighbors dv rest (dist.set u (some (dv + 1)))).1,
        u :: (processNeighbors dv rest (dist.set u (some (dv + 1)))).2) := by
  rw [processNeighbors, h]

theorem processNeighbors_cons_skip (dv u : Nat) (rest : List Nat)
    (dist : List (Option Nat)) (h : dist[u]? ≠ some none) :
    processNeighbors dv (u :: rest) dist = processNeighbors dv rest dist := by
  rw [processNeighbors]
  rcases h' : dist[u]? with _ | (_ | d)
  · rfl
  · exact absurd h' h
  · rfl

theorem getD_none_of_getElem?_some_none {dist : List (Option Nat)} {u : Nat}
    (h : dist[u]? = some none) : dist.getD u none = none := by
  rw [optGetD, h]; rfl

theorem getD_some_of_getElem?_some_some {dist : List (Option Nat)} {u d : Nat}
    (h : dist[u]? = some (some d)) : dist.getD u none = some d := by
  rw [optGetD, h]; rfl

theorem processNeighbors_length (dv : Nat) :
    ∀ (ns : List Nat) (dist : List (Option Nat)),
      (processNeighbors dv ns dist).1.length = dist.length
  | [], _ => rfl
  | u :: rest, dist => by
    rcases h : dist[u]? with _ | (_ | d)
    · rw [processNeighbors_cons_skip dv u rest dist (by simp [h])]
      exact processNeighbors_length dv rest dist
    · rw [processNeighbors_cons_set dv u rest dist h]
      rw [processNeighbors_length dv rest _, List.length_set]
    · rw [processNeighbors_cons_skip dv u rest dist (by simp [h])]
      exact processNeighbors_length dv rest dist

theorem processNeighbors_preserve (dv : Nat) :
    ∀ (ns : List Nat) (dist : List (Option Nat)) (u du : Nat),
      dist.getD u none = some du →
      (processNeighbors dv ns dist).1.getD u none = some du
  | [], _, _, _, h => h
  | w :: rest, dist, u, du, h => by
    rcases hw : dist[w]? with _ | (_ | d)
    · rw [processNeighbors_cons_skip dv w rest dist (by simp [hw])]
      exact processNeighbors_preserve dv rest dist u du h
    · rw [processNeighbors_cons_set dv w rest dist hw]
      refine processNeighbors_preserve dv rest _ u du ?_
      rw [setSome_getD]
      by_cases hwu : w = u ∧ w < dist.length
      · obtain ⟨rfl, -⟩ := hwu
        rw [getD_none_of_getElem?_some_none hw] at h
        exact absurd h (by simp)
      · rw [if_neg hwu]; exact h
    · rw [processNeighbors_cons_skip dv w rest dist (by simp [hw])]
      exact processNeighbors_preserve dv rest dist u du h

theorem processNeighbors_new (dv : Nat) :
    ∀ (ns : List Nat) (dist : List (Option Nat)) (u du : Nat),
      (processNeighbors dv ns dist).1.getD u none = some du →
      dist.getD u none = some du ∨
        (du = dv + 1 ∧ u ∈ ns ∧ u < dist.length ∧ dist.getD u none = none)
  | [], _, _, _, h => Or.inl h
  | w :: rest, dist, u, du, h => by
    rcases hw : dist[w]? with _ | (_ | d)
    · rw [processNeighbors_cons_skip dv w rest dist (by simp [hw])] at h
      rcases processNeighbors_new dv rest dist u du h with h' | ⟨h1, h2, h3, h4⟩
      · exact Or.inl h'
      · exact Or.inr ⟨h1, List.mem_cons_of_mem _ h2, h3, h4⟩
    · rw [processNeighbors_cons_set dv w rest dist hw] at h
      have hwlt : w < dist.length := lt_of_getElem?_some hw
      rcases processNeighbors_new dv rest _ u du h with h' | ⟨h1, h2, h3, h4⟩
      · rw [setSome_getD] at h'
        by_cases hwu : w = u ∧ w < dist.length
        · rw [if_pos hwu] at h'
          have hdu : du = dv + 1 := by
            have := h'.symm
            injection this
          exact Or.inr ⟨hdu, hwu.1 ▸ List.mem_cons_self w rest,
            hwu.1 ▸ hwu.2, hwu.1 ▸ getD_none_of_getElem?_some_none hw⟩
        · rw [if_neg hwu] at h'
          exact Or.inl h'
      · rw [setSome_getD] at h4
        by_cases hwu : w = u ∧ w < dist.length
        · rw [if_pos hwu] at h4
          exact absurd h4 (by simp)
        · rw [if_neg hwu] at h4
          rw [List.length_set] at h3
          exact Or.inr ⟨h1, List.mem_cons_of_mem _ h2, h3, h4⟩
    · rw [processNeighbors_cons_skip dv w rest dist (by simp [hw])] at h
      rcases processNeighbors_new dv rest dist u du h with h' | ⟨h1, h2, h3, h4⟩
      · exact Or.inl h'
      · exact Or.inr ⟨h1, List.mem_cons_of_mem _ h2, h3, h4⟩

theorem processNeighbors_pushed (dv : Nat) :
    ∀ (ns : List Nat) (dist : List (Option Nat)) (u : Nat),
      u ∈ (processNeighbors dv ns dist).2 ↔
        (u ∈ ns ∧ u < dist.length ∧ dist.getD u none = none ∧
          (processNeighbors dv ns dist).1.getD u none = some (dv + 1))
  | [], dist, u => by simp [processNeighbors]
  | w :: rest, dist, u => by
    rcases hw : dist[w]? with _ | (_ | d)
    · rw [processNeighbors_cons_skip dv w rest dist (by simp [hw])]
      rw [processNeighbors_pushed dv rest dist u]
      have hwlen : ¬ w < dist.length := fun hl => by
        rw [List.getElem?_eq_getElem hl] at hw
        exact Option.noConfusion hw
      constructor
      · rintro ⟨h1, h2, h3, h4⟩
        exact ⟨List.mem_cons_of_mem _ h1, h2, h3, h4⟩
      · rintro ⟨h1, h2, h3, h4⟩
        rcases List.mem_cons.1 h1 with rfl | h1'
        · exact absurd h2 hwlen
        · exact ⟨h1', h2, h3, h4⟩
    · rw [processNeighbors_cons_set dv w rest dist hw]
      have hwlt : w < dist.length := lt_of_getElem?_some hw
      have hwnone : dist.getD w none = none := getD_none_of_getElem?_some_none hw
      have hset : (dist.set w (some (dv + 1))).getD w none = some (dv + 1) := by
        rw [setSome_getD, if_pos ⟨rfl, hwlt⟩]
      constructor
      · intro hmem
        rcases List.mem_cons.1 hmem with rfl | hmem'
        · exact ⟨List.mem_cons_self u rest, hwlt, hwnone,
            processNeighbors_preserve dv rest _ u _ hset⟩
        · obtain ⟨h1, h2, h3, h4⟩ := (processNeighbors_pushed dv rest _ u).1 hmem'
          rw [List.length_set] at h2
          rw [setSome_getD] at h3
          by_cases hwu : w = u ∧ w < dist.length
          · rw [if_pos hwu] at h3; exact absurd h3 (by simp)
          · rw [if_neg hwu] at h3
            exact ⟨List.mem_cons_of_mem _ h1, h2, h3, h4⟩
      · rintro ⟨h1, h2, h3, h4⟩
        by_cases hwu : u = w
        · exact hwu ▸ List.mem_cons_self w _
        · rcases List.mem_cons.1 h1 with rfl | h1'
          · exact absurd rfl hwu
          · refine List.mem_cons_of_mem _ ((processNeighbors_pushed dv rest _ u).2
              ⟨h1', by rw [List.length_set]; exact h2, ?_, h4⟩)
            rw [setSome_getD, if_neg (fun hc => hwu hc.1.symm)]
            exact h3
    · rw [processNeighbors_cons_skip dv w rest dist (by simp [hw])]
      rw [processNeighbors_pushed dv rest dist u]
      have hwsome : dist.getD w none = some d := getD_some_of_getElem?_some_some hw
      constructor
      · rintro ⟨h1, h2, h3, h4⟩
        exact ⟨List.mem_cons_of_mem _ h1, h2, h3, h4⟩
      · rintro ⟨h1, h2, h3, h4⟩
        rcases List.mem_cons.1 h1 with rfl | h1'
        · rw [hwsome] at h3; exact absurd h3 (by simp)
        · exact ⟨h1', h2, h3, h4⟩

theorem processNeighbors_cover (dv : Nat) :
    ∀ (ns : List Nat) (dist : List (Option Nat)) (u : Nat),
      u ∈ ns → u < dist.length →
      ∃ du, (processNeighbors dv ns dist).1.getD u none = some du ∧
        (dist.getD u none = some du ∨ du = dv + 1)
  | [], _, _, h, _ => absurd h (List.not_mem_nil _)
  | w :: rest, dist, u, hmem, hlen => by
    rcases hw : dist[w]? with _ | (_ | d)
    · rw [processNeighbors_cons_skip dv w rest dist (by simp [hw])]
      have hwlen : ¬ w < dist.length := fun hl => by
        rw [List.getElem?_eq_getElem hl] at hw
        exact Option.noConfusion hw
      rcases List.mem_cons.1 hmem with rfl | hmem'
      · exact absurd hlen hwlen
      · exact processNeighbors_cover dv rest dist u hmem' hlen
    · rw [processNeighbors_cons_set dv w rest dist hw]
      have hwlt : w < dist.length := lt_of_getElem?_some hw
      have hset : (dist.set w (some (dv + 1))).getD w none = some (dv + 1) := by
        rw [setSome_getD, if_pos ⟨rfl, hwlt⟩]
      by_cases hwu : u = w
      · subst hwu
        exact ⟨dv + 1, processNeighbors_preserve dv rest _ u _ hset, Or.inr rfl⟩
      · rcases List.mem_cons.1 hmem with rfl | hmem'
        · exact absurd rfl hwu
        · obtain ⟨du, hdu, hor⟩ := processNeighbors_cover dv rest
            (dist.set w (some (dv + 1))) u hmem'
            (by rw [List.length_set]; exact hlen)
          refine ⟨du, hdu, ?_⟩
          rcases hor with hold | hnew
          · rw [setSome_getD, if_neg (fun hc => hwu hc.1.symm)] at hold
            exact Or.inl hold
          · exact Or.inr hnew
    · rw [processNeighbors_cons_skip dv w rest dist (by simp [hw])]
      have hwsome : dist.getD w none = some d := getD_some_of_getElem?_some_some hw
      by_cases hwu : u = w
      · subst hwu
        exact ⟨d, processNeighbors_preserve dv rest dist u d hwsome, Or.inl hwsome⟩
      · rcases List.mem_cons.1 hmem with rfl | hmem'
        · exact absurd rfl hwu
        · exact processNeighbors_cover dv rest dist u hmem' hlen

theorem noneCount_set_some (dist : List (Option Nat)) (u x : Nat)
    (hlt : u < dist.length) (hnone : dist[u]? = some none) :
    noneCount (dist.set u (some x)) + 1 = noneCount dist := by
  unfold noneCount
  rw [List.countP_set _ _ _ _ hlt]
  have hval : dist[u] = none := by
    rw [List.getElem?_eq_getElem hlt] at hnone
    injection hnone
  rw [hval]
  have hpos : 0 < dist.countP (fun o => o.isNone) :=
    List.countP_pos_iff.2 ⟨none, by rw [← hval]; exact List.getElem_mem hlt, rfl⟩
  simp only [Option.isNone_none, Option.isNone_some, if_true, Bool.false_eq_true,
    if_false]
  omega

theorem processNeighbors_noneCount (dv : Nat) :
    ∀ (ns : List Nat) (dist : List (Option Nat)),
      noneCount (processNeighbors dv ns dist).1 +
        (processNeighbors dv ns dist).2.length = noneCount dist
  | [], _ => rfl
  | w :: rest, dist => by
    rcases hw : dist[w]? with _ | (_ | d)
    · rw [processNeighbors_cons_skip dv w rest dist (by simp [hw])]
      exact processNeighbors_noneCount dv rest dist
    · rw [processNeighbors_cons_set dv w rest dist hw]
      have hwlt : w < dist.length := lt_of_getElem?_some hw
      have hcount := noneCount_set_some dist w (dv + 1) hwlt hw
      have hih := processNeighbors_noneCount dv rest (dist.set w (some (dv + 1)))
      simp only [List.length_cons]
      omega
    · rw [processNeighbors_cons_skip dv w rest dist (by simp [hw])]
      exact processNeighbors_noneCount dv rest dist

theorem bfsLoopF_nil (g : Graph) (fuel : Nat) (dist : List (Option Nat)) :
    bfsLoopF g fuel dist [] = dist := by
  cases fuel <;> rfl

theorem bfsLoopF_zero (g : Graph) (dist : List (Option Nat)) (queue : List Nat) :
    bfsLoopF g 0 dist queue = dist := by
  cases queue <;> rfl

theorem bfsLoopF_cons_proc (g : Graph) (fuel : Nat) (dist : List (Option Nat))
    (v : Nat) (rest : List Nat) (dv : Nat) (h : dist[v]? = some (some dv)) :
    bfsLoopF g (fuel + 1) dist (v :: rest) =
      bfsLoopF g fuel (processNeighbors dv (g.adjOf v) dist).1
        (rest ++ (processNeighbors dv (g.adjOf v) dist).2) := by
  rw [bfsLoopF, h]

theorem bfsLoopF_cons_skip (g : Graph) (fuel : Nat) (dist : List (Option Nat))
    (v : Nat) (rest : List Nat) (h : ∀ dv, dist[v]? ≠ some (some dv)) :
    bfsLoopF g (fuel + 1) dist (v :: rest) = bfsLoopF g fuel dist rest := by
  rw [bfsLoopF]
  rcases h' : dist[v]? with _ | (_ | d)
  · rfl
  · rfl
  · exact absurd h' (h d)

theorem bfsLoopF_preserve (g : Graph) :
    ∀ (fuel : Nat) (dist : List (Option Nat)) (queue : List Nat) (u du : Nat),
      dist.getD u none = some du →
      (bfsLoopF g fuel dist queue).getD u none = some du
  | 0, dist, queue, u, du, h => by rw [bfsLoopF_zero]; exact h
  | fuel + 1, dist, [], u, du, h => by rw [bfsLoopF_nil]; exact h
  | fuel + 1, dist, v :: rest, u, du, h => by
    rcases hv : dist[v]? with _ | (_ | dv)
    · rw [bfsLoopF_cons_skip g fuel dist v rest (by simp [hv])]
      exact bfsLoopF_preserve g fuel dist rest u du h
    · rw [bfsLoopF_cons_skip g fuel dist v rest (by simp [hv])]
      exact bfsLoopF_preserve g fuel dist rest u du h
    · rw [bfsLoopF_cons_proc g fuel dist v rest dv hv]
      exact bfsLoopF_preserve g fuel _ _ u du
        (processNeighbors_preserve dv (g.adjOf v) dist u du h)

theorem sorted_le_of_const : ∀ (l : List Nat) (c : Nat), (∀ x ∈ l, x = c) →
    l.Sorted (· ≤ ·)
  | [], _, _ => List.sorted_nil
  | a :: rest, c, h => by
    rw [List.sorted_cons]
    refine ⟨?_, sorted_le_of_const rest c (fun x hx => h x (List.mem_cons_of_mem _ hx))⟩
    intro b hb
    rw [h a (List.mem_cons_self a rest), h b (List.mem_cons_of_mem _ hb)]

theorem getElem?_of_getD_some {dist : List (Option Nat)} {u du : Nat}
    (h : dist.getD u none = some du) : dist[u]? = some (some du) := by
  rw [optGetD] at h
  rcases h' : dist[u]? with _ | o
  · rw [h'] at h; exact absurd h (by simp)
  · rw [h'] at h
    simp only [Option.getD_some] at h
    rw [h]

theorem BfsInv.process {g : Graph} {s : Nat} (wf : g.wellFormed)
    {dist : List (Option Nat)} {v : Nat} {rest : List Nat} {dv : Nat}
    (inv : BfsInv g s dist (v :: rest)) (hdv : dist.getD v none = some dv) :
    BfsInv g s (processNeighbors dv (g.adjOf v) dist).1
      (rest ++ (processNeighbors dv (g.adjOf v) dist).2) := by
  have hvn : v < g.n := inv.qlt v (List.mem_cons_self v rest)
  have hlen : dist.length = g.n := inv.len
  have hnslt : ∀ u ∈ g.adjOf v, u < g.n := fun u hu =>
    wf.2 _ (adjOf_mem_outedges g v (wf.1 ▸ hvn)) u hu
  have hplen : (processNeighbors dv (g.adjOf v) dist).1.length = dist.length :=
    processNeighbors_length dv _ dist
  have hdvv : distVal dist v = dv := by unfold distVal; rw [hdv]; rfl
  have hrest_assigned : ∀ w ∈ rest, ∃ dw, dist.getD w none = some dw := by
    intro w hw
    exact Option.isSome_iff_exists.1 (inv.qassigned w (List.mem_cons_of_mem _ hw))
  have hrest_eq : ∀ w ∈ rest,
      (processNeighbors dv (g.adjOf v) dist).1.getD w none = dist.getD w none := by
    intro w hw
    obtain ⟨dw, hdw⟩ := hrest_assigned w hw
    rw [hdw, processNeighbors_preserve dv _ dist w dw hdw]
  have hrest_val : ∀ w ∈ rest,
      distVal (processNeighbors dv (g.adjOf v) dist).1 w = distVal dist w := by
    intro w hw; unfold distVal; rw [hrest_eq w hw]
  have hrest_le : ∀ w ∈ rest, ∀ dw, dist.getD w none = some dw → dv ≤ dw := by
    intro w hw dw hdw
    have hq := inv.qsorted
    rw [List.map_cons] at hq
    have hle := List.rel_of_sorted_cons hq (distVal dist w) (List.mem_map_of_mem _ hw)
    rw [hdvv] at hle
    unfold distVal at hle
    rw [hdw] at hle
    exact hle
  have hbound_head : ∀ u du, dist.getD u none = some du → du ≤ dv + 1 := by
    intro u du hdu
    have hb := inv.bound u du hdu v (List.mem_cons_self v rest)
    rw [hdvv] at hb
    exact hb
  have hpush_val : ∀ w ∈ (processNeighbors dv (g.adjOf v) dist).2,
      (processNeighbors dv (g.adjOf v) dist).1.getD w none = some (dv + 1) ∧
        w < dist.length ∧ dist.getD w none = none ∧ w ∈ g.adjOf v := by
    intro w hw
    obtain ⟨h1, h2, h3, h4⟩ := (processNeighbors_pushed dv _ dist w).1 hw
    exact ⟨h4, h2, h3, h1⟩
  constructor
  · rw [hplen]; exact hlen
  · intro w hw
    rcases List.mem_append.1 hw with hw | hw
    · exact inv.qlt w (List.mem_cons_of_mem _ hw)
    · exact hlen ▸ (hpush_val w hw).2.1
  · intro w hw
    rcases List.mem_append.1 hw with hw | hw
    · rw [hrest_eq w hw]; exact inv.qassigned w (List.mem_cons_of_mem _ hw)
    · rw [(hpush_val w hw).1]; rfl
  · rw [List.map_append]
    show List.Pairwise _ _
    rw [List.pairwise_append]
    refine ⟨?_, ?_, ?_⟩
    · have hmapeq : rest.map (distVal (processNeighbors dv (g.adjOf v) dist).1) =
          rest.map (distVal dist) := List.map_congr_left hrest_val
      rw [hmapeq]
      have hq := inv.qsorted
      rw [List.map_cons] at hq
      exact hq.of_cons
    · apply sorted_le_of_const _ (dv + 1)
      intro x hx
      obtain ⟨w, hw, rfl⟩ := List.mem_map.1 hx
      unfold distVal
      rw [(hpush_val w hw).1]
      rfl
    · intro a ha b hb
      obtain ⟨w, hw, rfl⟩ := List.mem_map.1 ha
      obtain ⟨w', hw', rfl⟩ := List.mem_map.1 hb
      rw [hrest_val w hw]
      obtain ⟨dw, hdw⟩ := hrest_assigned w hw
      have h1 : distVal dist w = dw := by unfold distVal; rw [hdw]; rfl
      have h2 : distVal (processNeighbors dv (g.adjOf v) dist).1 w' = dv + 1 := by
        unfold distVal; rw [(hpush_val w' hw').1]; rfl
      rw [h1, h2]
      exact hbound_head w dw hdw
  · intro u du hdu w hw
    rcases List.mem_append.1 hw with hw | hw
    · rw [hrest_val w hw]
      obtain ⟨dw, hdw⟩ := hrest_assigned w hw
      have hdwval : distVal dist w = dw := by unfold distVal; rw [hdw]; rfl
      rcases processNeighbors_new dv _ dist u du hdu with hold | ⟨hdu1, _, _, _⟩
      · have := inv.bound u du hold w (List.mem_cons_of_mem _ hw)
        rwa [hdwval] at this ⊢
      · rw [hdwval, hdu1]
        have := hrest_le w hw dw hdw
        omega
    · have hwv : distVal (processNeighbors dv (g.adjOf v) dist).1 w = dv + 1 := by
        unfold distVal; rw [(hpush_val w hw).1]; rfl
      rw [hwv]
      rcases processNeighbors_new dv _ dist u du hdu with hold | ⟨hdu1, _, _, _⟩
      · have := hbound_head u du hold
        omega
      · omega
  · intro w dw' hw'
    rcases processNeighbors_new dv _ dist w dw' hw' with hold | ⟨hdw1, hwns, hwlen, hwnone⟩
    · rcases inv.closed w dw' hold with hq | hcl
      · rcases List.mem_cons.1 hq with rfl | hqr
        · right
          intro u hu
          have hult : u < dist.length := hlen ▸ hnslt u hu
          obtain ⟨du, hdu, hor⟩ := processNeighbors_cover dv _ dist u hu hult
          refine ⟨du, hdu, ?_⟩
          have hdveq : dw' = dv := by
            have h2 := hold.symm.trans hdv
            injection h2
          rcases hor with h1 | h1
          · have := hbound_head u du h1
            omega
          · omega
        · exact Or.inl (List.mem_append_left _ hqr)
      · right
        intro u hu
        obtain ⟨du, hdu, hle⟩ := hcl u hu
        exact ⟨du, processNeighbors_preserve dv _ dist u du hdu, hle⟩
    · left
      refine List.mem_append_right _ ((processNeighbors_pushed dv _ dist w).2
        ⟨hwns, hwlen, hwnone, ?_⟩)
      rw [hdw1] at hw'
      exact hw'
  · intro w dw' hw'
    rcases processNeighbors_new dv _ dist w dw' hw' with hold | ⟨hdw1, hwns, _, _⟩
    · exact inv.sound w dw' hold
    · rw [hdw1]
      exact ReachN.step (inv.sound v dv hdv) hwns

theorem bfsLoopF_inv (g : Graph) (s : Nat) (wf : g.wellFormed) :
    ∀ (fuel : Nat) (dist : List (Option Nat)) (queue : List Nat),
      BfsInv g s dist queue → noneCount dist + queue.length ≤ fuel →
      BfsInv g s (bfsLoopF g fuel dist queue) []
  | 0, dist, queue, inv, hfuel => by
    have hq : queue = [] := List.eq_nil_of_length_eq_zero (by omega)
    rw [bfsLoopF_zero]
    exact hq ▸ inv
  | fuel + 1, dist, [], inv, _ => by
    rw [bfsLoopF_nil]
    exact inv
  | fuel + 1, dist, v :: rest, inv, hfuel => by
    obtain ⟨dv, hdv⟩ := Option.isSome_iff_exists.1
      (inv.qassigned v (List.mem_cons_self v rest))
    rw [bfsLoopF_cons_proc g fuel dist v rest dv (getElem?_of_getD_some hdv)]
    have hcount := processNeighbors_noneCount dv (g.adjOf v) dist
    refine bfsLoopF_inv g s wf fuel _ _ (inv.process wf hdv) ?_
    rw [List.length_append]
    simp only [List.length_cons] at hfuel
    omega

theorem noneCount_replicate (n : Nat) :
    noneCount (List.replicate n (none : Option Nat)) = n := by
  unfold noneCount
  rw [List.countP_eq_length.2]
  · exact List.length_replicate n none
  · intro a ha
    rw [List.eq_of_mem_replicate ha]
    rfl

theorem dist0_getD (n s w : Nat) (hs : s < n) :
    ((List.replicate n (none : Option Nat)).set s (some 0)).getD w none =
      if w = s then some 0 else none := by
  rw [setSome_getD]
  have hrep : (List.replicate n (none : Option Nat)).getD w none = none := by
    rw [optGetD, List.getElem?_replicate]
    by_cases h : w < n <;> simp [h]
  rw [List.length_replicate]
  by_cases h : w = s
  · subst h
    rw [if_pos ⟨rfl, hs⟩, if_pos rfl]
  · rw [if_neg (fun hc => h hc.1.symm), if_neg h]
    exact hrep

theorem bfs_init_inv (g : Graph) (s : Nat) (hs : s < g.n) :
    BfsInv g s ((List.replicate g.n (none : Option Nat)).set s (some 0)) [s] := by
  have hget := dist0_getD g.n s
  constructor
  · rw [List.length_set, List.length_replicate]
  · intro w hw
    rw [List.mem_singleton] at hw
    exact hw ▸ hs
  · intro w hw
    rw [List.mem_singleton] at hw
    subst hw
    rw [hget w hs, if_pos rfl]
    rfl
  · simp
  · intro u du hdu w hw
    rw [List.mem_singleton] at hw
    rw [hw]
    rw [hget u hs] at hdu
    by_cases h : u = s
    · rw [if_pos h] at hdu
      have : du = 0 := by injection hdu.symm
      omega
    · rw [if_neg h] at hdu
      exact absurd hdu (by simp)
  · intro w dw hdw
    rw [hget w hs] at hdw
    by_cases h : w = s
    · exact Or.inl (h ▸ List.mem_singleton.2 rfl)
    · rw [if_neg h] at hdw
      exact absurd hdw (by simp)
  · intro w dw hdw
    rw [hget w hs] at hdw
    by_cases h : w = s
    · subst h
      rw [if_pos rfl] at hdw
      have : dw = 0 := by injection hdw.symm
      subst this
      exact ReachN.refl
    · rw [if_neg h] at hdw
      exact absurd hdw (by simp)

theorem bfsFrom_inv (g : Graph) (s : Nat) (wf : g.wellFormed) (hs : s < g.n) :
    BfsInv g s (g.bfsFrom s) [] := by
  unfold Graph.bfsFrom
  refine bfsLoopF_inv g s wf g.n _ _ (bfs_init_inv g s hs) ?_
  have h1 : (List.replicate g.n (none : Option Nat))[s]? = some none := by
    rw [List.getElem?_replicate, if_pos hs]
  have h2 := noneCount_set_some (List.replicate g.n (none : Option Nat)) s 0
    (by rw [List.length_replicate]; exact hs) h1
  rw [noneCount_replicate] at h2
  simp only [List.length_singleton]
  omega

theorem bfsFrom_self (g : Graph) (s : Nat) (hs : s < g.n) :
    (g.bfsFrom s).getD s none = some 0 := by
  unfold Graph.bfsFrom
  refine bfsLoopF_preserve g g.n _ [s] s 0 ?_
  rw [dist0_getD g.n s s hs, if_pos rfl]

theorem bfsFrom_complete (g : Graph) (s : Nat) (wf : g.wellFormed) (hs : s < g.n) :
    ∀ (v k : Nat), ReachN g s v k →
      ∃ d, (g.bfsFrom s).getD v none = some d ∧ d ≤ k := by
  intro v k h
  induction h with
  | refl => exact ⟨0, bfsFrom_self g s hs, Nat.le_refl 0⟩
  | step hr hadj ih =>
    obtain ⟨dw, hw, hwk⟩ := ih
    rcases (bfsFrom_inv g s wf hs).closed _ dw hw with hq | hcl
    · exact absurd hq (List.not_mem_nil _)
    · obtain ⟨du, hdu, hle⟩ := hcl _ hadj
      exact ⟨du, hdu, by omega⟩

/-- Characterisation of one single-source BFS: the final distance entry of
`v` is `some d` exactly when `d` is the shortest-path hop count from `s`
to `v` (and the entry stays `none` exactly for the unreachable `v`). -/
theorem bfsFrom_some_iff (g : Graph) (wf : g.wellFormed) (s : Nat) (hs : s < g.n)
    (v d : Nat) :
    (g.bfsFrom s).getD v none = some d ↔
      (ReachN g s v d ∧ ∀ k, ReachN g s v k → d ≤ k) := by
  constructor
  · intro h
    refine ⟨(bfsFrom_inv g s wf hs).sound v d h, ?_⟩
    intro k hk
    obtain ⟨d', hd', hle⟩ := bfsFrom_complete g s wf hs v k hk
    have : d = d' := by
      have h2 := h.symm.trans hd'
      injection h2
    omega
  · rintro ⟨hr, hmin⟩
    obtain ⟨d', hd', hle⟩ := bfsFrom_complete g s wf hs v d hr
    have hge : d ≤ d' := hmin d' ((bfsFrom_inv g s wf hs).sound v d' hd')
    have : d' = d := by omega
    exact this ▸ hd'

theorem bfs_fst (g : Graph) :
    (g.bfs).1 = (List.range g.n).flatMap (bfsRecordsFrom g) := rfl

theorem mem_bfsRecordsFrom (g : Graph) (s : Nat) (x : Nat × Nat × Nat) :
    x ∈ bfsRecordsFrom g s ↔
      x.1 = s ∧ x.2.1 < g.n ∧ (g.bfsFrom s).getD x.2.1 none = some x.2.2 := by
  unfold bfsRecordsFrom
  rw [List.mem_filterMap]
  constructor
  · rintro ⟨v, hv, heq⟩
    rcases h : (g.bfsFrom s).getD v none with _ | d
    · rw [h] at heq
      exact absurd heq (by simp)
    · rw [h] at heq
      simp only [Option.some.injEq] at heq
      subst heq
      exact ⟨rfl, List.mem_range.1 hv, h⟩
  · rintro ⟨h1, h2, h3⟩
    refine ⟨x.2.1, List.mem_range.2 h2, ?_⟩
    rw [h3]
    obtain ⟨a, b, c⟩ := x
    simp only at h1 h3 ⊢
    rw [h1]

theorem mem_bfs_records (g : Graph) (s v d : Nat) :
    (s, v, d) ∈ (g.bfs).1 ↔
      s < g.n ∧ v < g.n ∧ (g.bfsFrom s).getD v none = some d := by
  rw [bfs_fst, List.mem_flatMap]
  constructor
  · rintro ⟨s', hs', hmem⟩
    obtain ⟨h1, h2, h3⟩ := (mem_bfsRecordsFrom g s' _).1 hmem
    simp only at h1 h2 h3
    subst h1
    exact ⟨List.mem_range.1 hs', h2, h3⟩
  · rintro ⟨h1, h2, h3⟩
    exact ⟨s, List.mem_range.2 h1, (mem_bfsRecordsFrom g s _).2 ⟨rfl, h2, h3⟩⟩

theorem bfs_records_nodup (g : Graph) : (g.bfs).1.Nodup := by
  rw [bfs_fst, List.nodup_flatMap]
  constructor
  · intro s hs
    unfold bfsRecordsFrom
    refine List.Pairwise.filterMap _ ?_ (List.nodup_range g.n)
    intro v v' hne b hb b' hb'
    rcases h : (g.bfsFrom s).getD v none with _ | d <;> rw [h] at hb
    · exact absurd hb (by simp)
    rcases h' : (g.bfsFrom s).getD v' none with _ | d' <;> rw [h'] at hb'
    · exact absurd hb' (by simp)
    simp only [Option.mem_def, Option.some.injEq] at hb hb'
    subst hb; subst hb'
    intro hc
    injection hc with hc1 hc2
    injection hc2 with hc3 hc4
    exact hne hc3
  · refine (List.pairwise_lt_range g.n).imp ?_
    intro s s' hlt
    rw [Function.onFun, List.disjoint_left]
    intro x hx hx'
    have h1 := ((mem_bfsRecordsFrom g s x).1 hx).1
    have h2 := ((mem_bfsRecordsFrom g s' x).1 hx').1
    rw [h1] at h2
    omega

/-- Claim C1. For every well-formed graph, `Graph::bfs` runs one full
single-source BFS from every vertex `s` in `0..n` and produces exactly one
distance record `(s, v, d)` for every vertex `v` reachable from `s`, where
`d` is the shortest-path hop count from `s` to `v` (a walk of `d` hops
exists and no shorter one does); for every vertex `v` the record
`(v, v, 0)` is present; vertices unreachable from `s` produce no record at
all.  Exactly-one is expressed as the record list being duplicate-free
together with the membership characterisation (for a reachable pair the
shortest hop count is unique, so exactly one record matches, and for an
unreachable pair the characterisation admits no record). -/
theorem bfs_records_spec (g : Graph) (wf : g.wellFormed) :
    (g.bfs).1.Nodup ∧
      (∀ s v d, (s, v, d) ∈ (g.bfs).1 ↔
        (s < g.n ∧ v < g.n ∧ ReachN g s v d ∧ ∀ k, ReachN g s v k → d ≤ k)) ∧
      (∀ v, v < g.n → (v, v, 0) ∈ (g.bfs).1) := by
  refine ⟨bfs_records_nodup g, ?_, ?_⟩
  · intro s v d
    rw [mem_bfs_records]
    constructor
    · rintro ⟨h1, h2, h3⟩
      obtain ⟨hr, hmin⟩ := (bfsFrom_some_iff g wf s h1 v d).1 h3
      exact ⟨h1, h2, hr, hmin⟩
    · rintro ⟨h1, h2, hr, hmin⟩
      exact ⟨h1, h2, (bfsFrom_some_iff g wf s h1 v d).2 ⟨hr, hmin⟩⟩
  · intro v hv
    rw [mem_bfs_records]
    exact ⟨hv, hv, bfsFrom_self g v hv⟩

/-- Witness for C1 at the concrete path graph `A-B, B-C` (vertices
`0-1, 1-2`). -/
theorem bfs_records_spec_witness :
    (Graph.create_undirected 3 [(0, 1), (1, 2)]).wellFormed ∧
      (((Graph.create_undirected 3 [(0, 1), (1, 2)]).bfs).1.Nodup ∧
        (∀ s v d, (s, v, d) ∈ ((Graph.create_undirected 3 [(0, 1), (1, 2)]).bfs).1 ↔
          (s < (Graph.create_undirected 3 [(0, 1), (1, 2)]).n ∧
            v < (Graph.create_undirected 3 [(0, 1), (1, 2)]).n ∧
            ReachN (Graph.create_undirected 3 [(0, 1), (1, 2)]) s v d ∧
            ∀ k, ReachN (Graph.create_undirected 3 [(0, 1), (1, 2)]) s v k → d ≤ k)) ∧
        (∀ v, v < (Graph.create_undirected 3 [(0, 1), (1, 2)]).n →
          (v, v, 0) ∈ ((Graph.create_undirected 3 [(0, 1), (1, 2)]).bfs).1)) :=
  ⟨by decide, bfs_records_spec (Graph.create_undirected 3 [(0, 1), (1, 2)]) (by decide)⟩

/-- Claim C2, as stated, fails on the concrete example: for the 3-vertex path
`A-B, B-C` the nine records are the distances `0,1,2,1,0,1,2,1,0`, which sum
to `8`, not `6` (the claim's enumeration drops one of the two distance-2
pairs); the truncated average `8 / 9 = 0` still holds. -/
theorem bfs_average_example_counterexample :
    ((Graph.create_undirected 3 [(0, 1), (1, 2)]).bfs).1.length = 9 ∧
      (((Graph.create_undirected 3 [(0, 1), (1, 2)]).bfs).1.map
        (fun r => r.2.2)).sum = 8 ∧
      ¬ (((Graph.create_undirected 3 [(0, 1), (1, 2)]).bfs).1.map
        (fun r => r.2.2)).sum = 6 ∧
      ((Graph.create_undirected 3 [(0, 1), (1, 2)]).bfs).2 = 0 := by
  refine ⟨by decide, by decide, by decide, by decide⟩

/-- Claim C2 (amended). The average distance returned by `Graph::bfs` equals
the sum of all recorded distances (the `n` zero-distance self pairs
included) divided by the number of records, with truncating integer
division, and equals `0` when there are no records (in particular for a
zero-vertex graph).  The two boundedness hypotheses are the `u32` side
conditions under which the 32-bit sum and the `as u32` cast of the source
are exact.  Concretely, for the 3-vertex path `A-B, B-C` the nine records
sum to `8` (not the claim's `6`) and the average is `8 / 9 = 0`. -/
theorem bfs_average_spec (g : Graph)
    (hsum : (((g.bfs).1.map (fun r => r.2.2)).sum) < 4294967296)
    (hlen : (g.bfs).1.length < 4294967296) :
    ((g.bfs).1 ≠ [] →
      (g.bfs).2 = ((g.bfs).1.map (fun r => r.2.2)).sum / (g.bfs).1.length) ∧
      ((g.bfs).1 = [] → (g.bfs).2 = 0) ∧
      ((Graph.create_undirected 0 []).bfs = ([], 0)) ∧
      (((Graph.create_undirected 3 [(0, 1), (1, 2)]).bfs).1.map
        (fun r => r.2.2)).sum = 8 ∧
      ((Graph.create_undirected 3 [(0, 1), (1, 2)]).bfs).1.length = 9 ∧
      ((Graph.create_undirected 3 [(0, 1), (1, 2)]).bfs).2 = 0 := by
  have hsnd : (g.bfs).2 = if (g.bfs).1.isEmpty then 0 else
      (((g.bfs).1.map (fun r => r.2.2)).sum % 4294967296) /
        ((g.bfs).1.length % 4294967296) := rfl
  refine ⟨?_, ?_, by decide, by decide, by decide, by decide⟩
  · intro hne
    rw [hsnd, if_neg (by simp [List.isEmpty_iff, hne]),
      Nat.mod_eq_of_lt hsum, Nat.mod_eq_of_lt hlen]
  · intro he
    rw [hsnd, if_pos (by simp [List.isEmpty_iff, he])]

/-- Witness for C2 at the concrete path graph `A-B, B-C`. -/
theorem bfs_average_spec_witness :
    ((((Graph.create_undirected 3 [(0, 1), (1, 2)]).bfs).1.map
        (fun r => r.2.2)).sum < 4294967296) ∧
      (((Graph.create_undirected 3 [(0, 1), (1, 2)]).bfs).1.length < 4294967296) ∧
      (((Graph.create_undirected 3 [(0, 1), (1, 2)]).bfs).1 ≠ [] →
        ((Graph.create_undirected 3 [(0, 1), (1, 2)]).bfs).2 =
          (((Graph.create_undirected 3 [(0, 1), (1, 2)]).bfs).1.map
            (fun r => r.2.2)).sum /
            ((Graph.create_undirected 3 [(0, 1), (1, 2)]).bfs).1.length) :=
  ⟨by decide, by decide,
    (bfs_average_spec (Graph.create_undirected 3 [(0, 1), (1, 2)])
      (by decide) (by decide)).1⟩

/-- Claim C9, counterexample.  The claim says misuse of the floating-point
kind as a map or sort key is prevented statically, with no runtime check or
panic in the equality/ordering/hashing operations.  In the source the
`Hash` implementation itself carries an explicit runtime panic for
`ColumnVal::Three` — a runtime check reachable by calling the public
hashing operation on a float value — modelled here by the `none` result. -/
theorem cvHash_three_counterexample : cvHash (ColumnVal.Three 0) [] = none := rfl

/-- Claim C9 (amended).  Equality and ordering on identifier values are total
and never fail at runtime (a float value is equal to nothing, itself
included, and compares `Equal` to everything); hashing succeeds on the text
and integer kinds, but the float kind is rejected by a runtime panic inside
the `Hash` implementation — a dynamic check, not a static shape-of-API
prevention. -/
theorem columnVal_ops_spec (s : String) (n : Int) (x : Nat) (st : List Int)
    (b : ColumnVal) :
    (cvHash (ColumnVal.One s) st).isSome ∧
      (cvHash (ColumnVal.Two n) st).isSome ∧
      cvHash (ColumnVal.Three x) st = none ∧
      cvEq (ColumnVal.Three x) b = false ∧
      cvEq b (ColumnVal.Three x) = false ∧
      cvCmp (ColumnVal.Three x) b = Ordering.eq ∧
      cvCmp b (ColumnVal.Three x) = Ordering.eq := by
  refine ⟨rfl, rfl, rfl, ?_, ?_, ?_, ?_⟩ <;> cases b <;> rfl

theorem lookupStr_mem {s : String} {m : List (String × Nat)} {i : Nat}
    (h : lookupStr s m = some i) : (s, i) ∈ m := by
  unfold lookupStr at h
  rw [Option.map_eq_some'] at h
  obtain ⟨p, hp, hi⟩ := h
  have hmem := List.mem_of_find?_eq_some hp
  have hpred := List.find?_some hp
  rw [beq_iff_eq] at hpred
  obtain ⟨a, b⟩ := p
  simp only at hpred hi
  rw [hpred] at hmem
  rw [hi] at hmem
  exact hmem

theorem actorToIndex_snd_lt :
    ∀ (hash : List (ColumnVal × List String)) (acc : List (String × Nat)),
      (∀ p ∈ acc, p.2 < acc.length) →
      ∀ p ∈ hash.foldl (fun acc p =>
        match lookupStr (cvToString p.1) acc with
        | some _ => acc
        | none => acc ++ [(cvToString p.1, acc.length)]) acc,
        p.2 < (hash.foldl (fun acc p =>
          match lookupStr (cvToString p.1) acc with
          | some _ => acc
          | none => acc ++ [(cvToString p.1, acc.length)]) acc).length
  | [], acc, hacc => by simpa using hacc
  | q :: rest, acc, hacc => by
    rw [List.foldl_cons]
    rcases h : lookupStr (cvToString q.1) acc with _ | i
    · refine actorToIndex_snd_lt rest _ ?_
      intro p hp
      rw [List.length_append, List.length_singleton]
      rcases List.mem_append.1 hp with hp | hp
      · have := hacc p hp
        omega
      · rw [List.mem_singleton] at hp
        rw [hp]
        simp
    · exact actorToIndex_snd_lt rest acc hacc

theorem actorToIndex_lt (hash : List (ColumnVal × List String)) :
    ∀ p ∈ actorToIndex hash, p.2 < (actorToIndex hash).length := by
  exact actorToIndex_snd_lt hash [] (by simp)

theorem connectionsOf_mem (hash : List (ColumnVal × List String))
    (a2i : List (String × Nat)) (x y : Nat) :
    (x, y) ∈ connectionsOf hash a2i ↔
      ∃ p ∈ hash, ∃ f ∈ p.2, lookupStr (cvToString p.1) a2i = some x ∧
        lookupStr f a2i = some y := by
  unfold connectionsOf
  rw [List.mem_flatMap]
  constructor
  · rintro ⟨p, hp, hmem⟩
    rcases h : lookupStr (cvToString p.1) a2i with _ | ai
    · rw [h] at hmem
      exact absurd hmem (List.not_mem_nil _)
    · rw [h] at hmem
      rw [List.mem_filterMap] at hmem
      obtain ⟨f, hf, heq⟩ := hmem
      rw [Option.map_eq_some'] at heq
      obtain ⟨fi, hfi, hpair⟩ := heq
      injection hpair with h1 h2
      subst h1; subst h2
      exact ⟨p, hp, f, hf, h, hfi⟩
  · rintro ⟨p, hp, f, hf, hx, hy⟩
    refine ⟨p, hp, ?_⟩
    rw [hx, List.mem_filterMap]
    exact ⟨f, hf, by rw [hy]; rfl⟩

theorem connectionsOf_bounded (hash : List (ColumnVal × List String)) :
    ∀ e ∈ connectionsOf hash (actorToIndex hash),
      e.1 < (actorToIndex hash).length ∧ e.2 < (actorToIndex hash).length := by
  rintro ⟨x, y⟩ he
  obtain ⟨p, _, f, _, hx, hy⟩ := (connectionsOf_mem hash _ x y).1 he
  exact ⟨actorToIndex_lt hash _ (lookupStr_mem hx),
    actorToIndex_lt hash _ (lookupStr_mem hy)⟩

/-- Claim C10.  For every relationship mapping, every edge `hash_graph`
passes to `create_undirected` has both endpoints strictly below the vertex
count `n` (the size of the index map), and the resulting graph is
well-formed (`n` adjacency lists, every stored neighbour `< n`), so the
adjacency indexing inside `add_directed_edges` and `bfs` stays in bounds
and construction plus traversal are total. -/
theorem hash_graph_safe (hash : List (ColumnVal × List String)) :
    (∀ e ∈ connectionsOf hash (actorToIndex hash),
      e.1 < (actorToIndex hash).length ∧ e.2 < (actorToIndex hash).length) ∧
      (hash_graph hash).n = (actorToIndex hash).length ∧
      (hash_graph hash).wellFormed :=
  ⟨connectionsOf_bounded hash, rfl,
    create_undirected_wellFormed _ _ (connectionsOf_bounded hash)⟩

theorem lookupStr_append (s : String) (m₁ m₂ : List (String × Nat)) :
    lookupStr s (m₁ ++ m₂) = match lookupStr s m₁ with
      | some i => some i
      | none => lookupStr s m₂ := by
  unfold lookupStr
  rw [List.find?_append]
  cases h : m₁.find? (fun p => p.1 == s) <;> simp [h, Option.orElse]

theorem lookupStr_singleton (s t : String) (i : Nat) :
    lookupStr s [(t, i)] = if t = s then some i else none := by
  unfold lookupStr
  by_cases h : t = s
  · subst h
    rw [List.find?_cons_of_pos _ (by simp)]
    simp
  · rw [List.find?_cons_of_neg _ (by simpa using h)]
    simp [h]

theorem eq_of_pairwise_ne {α β : Type} (f : α → β) :
    ∀ (l : List α), l.Pairwise (fun x y => f x ≠ f y) →
      ∀ a ∈ l, ∀ b ∈ l, f a = f b → a = b
  | [], _, a, ha, _, _, _ => absurd ha (List.not_mem_nil a)
  | c :: rest, hpw, a, ha, b, hb, hfab => by
    have hhead : ∀ x ∈ rest, f c ≠ f x := fun x hx => List.rel_of_pairwise_cons hpw hx
    rcases List.mem_cons.1 ha with rfl | ha' <;> rcases List.mem_cons.1 hb with rfl | hb'
    · rfl
    · exact absurd hfab (hhead b hb')
    · exact absurd hfab.symm (hhead a ha')
    · exact eq_of_pairwise_ne f rest hpw.of_cons a ha' b hb' hfab

theorem actorToIndex_aux_spec :
    ∀ (hash : List (ColumnVal × List String)) (acc : List (String × Nat)),
      hash.Pairwise (fun p q => cvToString p.1 ≠ cvToString q.1) →
      (∀ p ∈ hash, lookupStr (cvToString p.1) acc = none) →
      ((hash.foldl (fun acc p =>
          match lookupStr (cvToString p.1) acc with
          | some _ => acc
          | none => acc ++ [(cvToString p.1, acc.length)]) acc).length =
        acc.length + hash.length) ∧
      (∀ i (hi : i < hash.length),
        lookupStr (cvToString (hash.get ⟨i, hi⟩).1) (hash.foldl (fun acc p =>
          match lookupStr (cvToString p.1) acc with
          | some _ => acc
          | none => acc ++ [(cvToString p.1, acc.length)]) acc) =
          some (acc.length + i)) ∧
      (∀ s j, lookupStr s acc = some j →
        lookupStr s (hash.foldl (fun acc p =>
          match lookupStr (cvToString p.1) acc with
          | some _ => acc
          | none => acc ++ [(cvToString p.1, acc.length)]) acc) = some j)
  | [], acc, _, _ => by
    refine ⟨by simp, ?_, ?_⟩
    · intro i hi
      exact absurd hi (by simp)
    · intro s j h
      simpa using h
  | q :: rest, acc, hpw, hnone => by
    rw [List.foldl_cons]
    have hq : lookupStr (cvToString q.1) acc = none :=
      hnone q (List.mem_cons_self q rest)
    rw [hq]
    have hhead : ∀ p ∈ rest, cvToString q.1 ≠ cvToString p.1 :=
      fun p hp => List.rel_of_pairwise_cons hpw hp
    have hrest_none : ∀ p ∈ rest,
        lookupStr (cvToString p.1) (acc ++ [(cvToString q.1, acc.length)]) = none := by
      intro p hp
      rw [lookupStr_append, hnone p (List.mem_cons_of_mem _ hp), lookupStr_singleton,
        if_neg (hhead p hp)]
    obtain ⟨ihlen, ihidx, ihpre⟩ := actorToIndex_aux_spec rest
      (acc ++ [(cvToString q.1, acc.length)]) hpw.of_cons hrest_none
    have hacclen : (acc ++ [(cvToString q.1, acc.length)]).length = acc.length + 1 := by
      simp
    refine ⟨?_, ?_, ?_⟩
    · rw [ihlen, hacclen, List.length_cons]
      omega
    · intro i hi
      cases i with
      | zero =>
        have hq' : lookupStr (cvToString q.1)
            (acc ++ [(cvToString q.1, acc.length)]) = some acc.length := by
          rw [lookupStr_append, hq, lookupStr_singleton, if_pos rfl]
        have := ihpre (cvToString q.1) acc.length hq'
        simpa using this
      | succ j =>
        have hj : j < rest.length := by
          rw [List.length_cons] at hi
          omega
        have := ihidx j hj
        rw [hacclen] at this
        have hget : (q :: rest).get ⟨j + 1, hi⟩ = rest.get ⟨j, hj⟩ := rfl
        rw [hget]
        rw [this]
        congr 1
        omega
    · intro s j h
      refine ihpre s j ?_
      rw [lookupStr_append, h]

theorem actorToIndex_length_of_distinct (hash : List (ColumnVal × List String))
    (hpw : hash.Pairwise (fun p q => cvToString p.1 ≠ cvToString q.1)) :
    (actorToIndex hash).length = hash.length := by
  have := (actorToIndex_aux_spec hash [] hpw (by intro p _; rfl)).1
  unfold actorToIndex
  simpa using this

theorem actorToIndex_get_of_distinct (hash : List (ColumnVal × List String))
    (hpw : hash.Pairwise (fun p q => cvToString p.1 ≠ cvToString q.1))
    (i : Nat) (hi : i < hash.length) :
    lookupStr (cvToString (hash.get ⟨i, hi⟩).1) (actorToIndex hash) = some i := by
  have := (actorToIndex_aux_spec hash [] hpw (by intro p _; rfl)).2.1 i hi
  unfold actorToIndex
  simpa using this

theorem actorToIndex_snd_pairwise_aux :
    ∀ (hash : List (ColumnVal × List String)) (acc : List (String × Nat)),
      (∀ p ∈ acc, p.2 < acc.length) →
      acc.Pairwise (fun p q => p.2 ≠ q.2) →
      (hash.foldl (fun acc p =>
        match lookupStr (cvToString p.1) acc with
        | some _ => acc
        | none => acc ++ [(cvToString p.1, acc.length)]) acc).Pairwise
          (fun p q => p.2 ≠ q.2)
  | [], acc, _, hpw => hpw
  | q :: rest, acc, hbd, hpw => by
    rw [List.foldl_cons]
    rcases h : lookupStr (cvToString q.1) acc with _ | i
    · refine actorToIndex_snd_pairwise_aux rest _ ?_ ?_
      · intro p hp
        rw [List.length_append, List.length_singleton]
        rcases List.mem_append.1 hp with hp | hp
        · have := hbd p hp
          omega
        · rw [List.mem_singleton] at hp
          rw [hp]
          simp
      · rw [List.pairwise_append]
        refine ⟨hpw, List.pairwise_singleton _ _, ?_⟩
        intro p hp r hr
        rw [List.mem_singleton] at hr
        rw [hr]
        have := hbd p hp
        simp only
        omega
    · exact actorToIndex_snd_pairwise_aux rest acc hbd hpw

theorem actorToIndex_snd_pairwise (hash : List (ColumnVal × List String)) :
    (actorToIndex hash).Pairwise (fun p q => p.2 ≠ q.2) :=
  actorToIndex_snd_pairwise_aux hash [] (by simp) List.Pairwise.nil

theorem lookupStr_inj (hash : List (ColumnVal × List String)) (s1 s2 : String)
    (i : Nat) (h1 : lookupStr s1 (actorToIndex hash) = some i)
    (h2 : lookupStr s2 (actorToIndex hash) = some i) : s1 = s2 := by
  have hm1 := lookupStr_mem h1
  have hm2 := lookupStr_mem h2
  have := eq_of_pairwise_ne Prod.snd (actorToIndex hash)
    (actorToIndex_snd_pairwise hash) (s1, i) hm1 (s2, i) hm2 rfl
  injection this

/-- Claim C5, counterexample.  Two failures of the claim at concrete inputs.
(i) The keys `Two 5` and `One "5"` are distinct identifiers under the
source's equality, but share the display string `"5"`, so `hash_graph`
assigns them one index: the vertex count is 1, not 2, and the distinct keys
are not in bijection with `0..n`.  (ii) The key `"A"` has an empty neighbour
list, yet its adjacency list in the undirected result is `[1]`, not empty,
because key `"B"` names `"A"` and the reverse edge lands on `"A"`. -/
theorem hash_graph_counterexample :
    ((hash_graph [(ColumnVal.Two 5, []), (ColumnVal.One "5", [])]).n = 1 ∧
      cvEq (ColumnVal.Two 5) (ColumnVal.One "5") = false) ∧
      (hash_graph [(ColumnVal.One "A", []),
        (ColumnVal.One "B", ["A"])]).adjOf 0 = [1] ∧
      ¬ (hash_graph [(ColumnVal.One "A", []),
        (ColumnVal.One "B", ["A"])]).adjOf 0 = [] := by
  exact ⟨⟨by decide, by decide⟩, by decide, by decide⟩

/-- Claim C5 (amended).  `hash_graph` is total and never fails.  For every
relationship mapping whose keys have pairwise distinct display strings (in
particular any mapping with only text keys, the shape §6 of the spec
feeds it): the vertex count equals the number of keys and the `i`-th key is
indexed exactly `i` (the keys are in bijection with `0..n`); an index pair
is emitted exactly for a key/friend pair whose strings both resolve in the
index map, so a neighbour name that is not a key's string is silently
dropped; and a key with no indexed neighbours still owns its vertex index,
whose adjacency list is empty provided no other key's neighbour list
resolves to it (the original claim's unconditional empty-list statement
fails because reverse edges from other keys land on it). -/
theorem hash_graph_spec (hash : List (ColumnVal × List String))
    (hpw : hash.Pairwise (fun p q => cvToString p.1 ≠ cvToString q.1)) :
    (hash_graph hash).n = hash.length ∧
      (∀ i (hi : i < hash.length),
        lookupStr (cvToString (hash.get ⟨i, hi⟩).1) (actorToIndex hash) = some i) ∧
      (∀ x y, (x, y) ∈ connectionsOf hash (actorToIndex hash) ↔
        ∃ p ∈ hash, ∃ f ∈ p.2,
          lookupStr (cvToString p.1) (actorToIndex hash) = some x ∧
          lookupStr f (actorToIndex hash) = some y) ∧
      (∀ k fs i, (k, fs) ∈ hash →
        lookupStr (cvToString k) (actorToIndex hash) = some i →
        (∀ f ∈ fs, lookupStr f (actorToIndex hash) = none) →
        (∀ p ∈ hash, ∀ f ∈ p.2, lookupStr f (actorToIndex hash) ≠ some i) →
        (hash_graph hash).adjOf i = []) := by
  refine ⟨?_, actorToIndex_get_of_distinct hash hpw,
    fun x y => connectionsOf_mem hash (actorToIndex hash) x y, ?_⟩
  · show (actorToIndex hash).length = hash.length
    exact actorToIndex_length_of_distinct hash hpw
  · intro k fs i hkmem hki hfs hrev
    rw [List.eq_nil_iff_forall_not_mem]
    intro v hv
    unfold hash_graph at hv
    rw [create_undirected_adj] at hv
    rcases hv.1 with he | he
    · obtain ⟨p, hp, f, hf, hpi, hfv⟩ := (connectionsOf_mem hash _ i v).1 he
      have hstr : cvToString p.1 = cvToString k := lookupStr_inj hash _ _ i hpi hki
      have hpk : p = (k, fs) :=
        eq_of_pairwise_ne (fun p => cvToString p.1) hash hpw p hp (k, fs) hkmem hstr
      rw [hpk] at hf
      rw [hfs f hf] at hfv
      exact Option.noConfusion hfv
    · obtain ⟨p, hp, f, hf, hpv, hfi⟩ := (connectionsOf_mem hash _ v i).1 he
      exact hrev p hp f hf hfi

/-- Witness for C5 (amended) at the concrete mapping
`{A ↦ [B, X], B ↦ []}` (the name `X` is dangling). -/
theorem hash_graph_spec_witness :
    ([((ColumnVal.One "A" : ColumnVal), ["B", "X"]),
        (ColumnVal.One "B", [])].Pairwise
      (fun p q => cvToString p.1 ≠ cvToString q.1)) ∧
      ((hash_graph [(ColumnVal.One "A", ["B", "X"]), (ColumnVal.One "B", [])]).n =
        [((ColumnVal.One "A" : ColumnVal), ["B", "X"]),
          (ColumnVal.One "B", [])].length ∧
        (∀ i (hi : i < [((ColumnVal.One "A" : ColumnVal), ["B", "X"]),
            (ColumnVal.One "B", [])].length),
          lookupStr (cvToString ([((ColumnVal.One "A" : ColumnVal), ["B", "X"]),
              (ColumnVal.One "B", [])].get ⟨i, hi⟩).1)
            (actorToIndex [(ColumnVal.One "A", ["B", "X"]),
              (ColumnVal.One "B", [])]) = some i) ∧
        (∀ x y, (x, y) ∈ connectionsOf
            [(ColumnVal.One "A", ["B", "X"]), (ColumnVal.One "B", [])]
            (actorToIndex [(ColumnVal.One "A", ["B", "X"]),
              (ColumnVal.One "B", [])]) ↔
          ∃ p ∈ [((ColumnVal.One "A" : ColumnVal), ["B", "X"]),
              (ColumnVal.One "B", [])], ∃ f ∈ p.2,
            lookupStr (cvToString p.1) (actorToIndex
              [(ColumnVal.One "A", ["B", "X"]), (ColumnVal.One "B", [])]) = some x ∧
            lookupStr f (actorToIndex [(ColumnVal.One "A", ["B", "X"]),
              (ColumnVal.One "B", [])]) = some y) ∧
        (∀ k fs i, (k, fs) ∈ [((ColumnVal.One "A" : ColumnVal), ["B", "X"]),
            (ColumnVal.One "B", [])] →
          lookupStr (cvToString k) (actorToIndex
            [(ColumnVal.One "A", ["B", "X"]), (ColumnVal.One "B", [])]) = some i →
          (∀ f ∈ fs, lookupStr f (actorToIndex
            [(ColumnVal.One "A", ["B", "X"]), (ColumnVal.One "B", [])]) = none) →
          (∀ p ∈ [((ColumnVal.One "A" : ColumnVal), ["B", "X"]),
              (ColumnVal.One "B", [])], ∀ f ∈ p.2,
            lookupStr f (actorToIndex [(ColumnVal.One "A", ["B", "X"]),
              (ColumnVal.One "B", [])]) ≠ some i) →
          (hash_graph [(ColumnVal.One "A", ["B", "X"]),
            (ColumnVal.One "B", [])]).adjOf i = [])) :=
  ⟨by decide, hash_graph_spec
    [(ColumnVal.One "A", ["B", "X"]), (ColumnVal.One "B", [])] (by decide)⟩

theorem cvEq_symm (a b : ColumnVal) : cvEq a b = cvEq b a := by
  cases a <;> cases b <;> simp [cvEq]
  · constructor <;> (intro h; exact h.symm)
  · constructor <;> (intro h; exact h.symm)

theorem cvEq_trans {a b c : ColumnVal} (h1 : cvEq a b = true)
    (h2 : cvEq b c = true) : cvEq a c = true := by
  cases a <;> cases b <;> cases c <;> simp [cvEq] at h1 h2 ⊢
  · exact h1.trans h2
  · exact h1.trans h2

theorem cvEq_congr {a k : ColumnVal} (h : cvEq a k = true) (c : ColumnVal) :
    cvEq c a = cvEq c k := by
  cases hc : cvEq c a
  · cases hk : cvEq c k
    · rfl
    · have : cvEq c a = true := by
        have h1 : cvEq k a = true := by rw [cvEq_symm] at h; exact h
        exact cvEq_trans hk h1
      rw [this] at hc
      exact hc.symm
  · exact (cvEq_trans hc h).symm

theorem lookupCv_congr {a k : ColumnVal} (h : cvEq a k = true)
    (m : List (ColumnVal × List String)) : lookupCv a m = lookupCv k m := by
  unfold lookupCv
  have : (fun p : ColumnVal × List String => cvEq p.1 a) =
      (fun p => cvEq p.1 k) := funext fun p => cvEq_congr h p.1
  rw [this]

theorem lookupCv_cons (q : ColumnVal × List String)
    (rest : List (ColumnVal × List String)) (k : ColumnVal) :
    lookupCv k (q :: rest) = if cvEq q.1 k then some q.2 else lookupCv k rest := by
  by_cases h : cvEq q.1 k = true
  · have hfind : List.find? (fun p => cvEq p.1 k) (q :: rest) = some q :=
      List.find?_cons_of_pos rest (by simpa using h)
    unfold lookupCv
    rw [hfind, if_pos h]
    rfl
  · have hfind : List.find? (fun p => cvEq p.1 k) (q :: rest) =
        List.find? (fun p => cvEq p.1 k) rest :=
      List.find?_cons_of_neg rest (by simpa using h)
    unfold lookupCv
    rw [hfind, if_neg h]

theorem lookupCv_append (k : ColumnVal) (m₁ m₂ : List (ColumnVal × List String)) :
    lookupCv k (m₁ ++ m₂) = match lookupCv k m₁ with
      | some w => some w
      | none => lookupCv k m₂ := by
  unfold lookupCv
  rw [List.find?_append]
  cases h : m₁.find? (fun p => cvEq p.1 k) <;> simp [h, Option.orElse]

theorem lookupCv_single (k a : ColumnVal) (v : List String) :
    lookupCv k [(a, v)] = if cvEq a k then some v else none := by
  rw [lookupCv_cons]
  rfl

theorem lookupCv_eq_none_iff (k : ColumnVal) (m : List (ColumnVal × List String)) :
    lookupCv k m = none ↔ ∀ p ∈ m, cvEq p.1 k = false := by
  unfold lookupCv
  rw [Option.map_eq_none', List.find?_eq_none]
  constructor
  · intro h p hp
    have := h p hp
    simpa using this
  · intro h p hp
    simp [h p hp]

theorem lookupCv_some_exists {k : ColumnVal} {m : List (ColumnVal × List String)}
    {w : List String} (h : lookupCv k m = some w) :
    ∃ p ∈ m, cvEq p.1 k = true := by
  by_contra hc
  push_neg at hc
  have hall : ∀ p ∈ m, cvEq p.1 k = false := by
    intro p hp
    cases h' : cvEq p.1 k
    · rfl
    · exact absurd h' (by simpa using hc p hp)
  rw [(lookupCv_eq_none_iff k m).2 hall] at h
  exact Option.noConfusion h

theorem lookupCv_mapReplace (a k : ColumnVal) (v : List String) :
    ∀ m : List (ColumnVal × List String),
      lookupCv k (m.map (fun p => if cvEq p.1 a then (p.1, v) else p)) =
        match lookupCv k m with
        | some w => if cvEq a k then some v else some w
        | none => none
  | [] => by simp [lookupCv]
  | q :: rest => by
    rw [List.map_cons, lookupCv_cons q rest k]
    have hkey : (if cvEq q.1 a then (q.1, v) else q).1 = q.1 := by
      by_cases h : cvEq q.1 a = true <;> simp [h]
    rw [lookupCv_cons _ _ k, hkey]
    by_cases hpk : cvEq q.1 k = true
    · rw [if_pos hpk, if_pos hpk]
      by_cases hak : cvEq a k = true
      · have hpa : cvEq q.1 a = true := by
          rw [cvEq_congr hak q.1]
          exact hpk
        simp [hak, hpa]
      · have hpa : cvEq q.1 a = false := by
          cases h' : cvEq q.1 a
          · rfl
          · have h1 : cvEq a q.1 = true := by rw [cvEq_symm]; exact h'
            exact absurd (cvEq_trans h1 hpk) (by simpa using hak)
        simp [hak, hpa]
    · rw [if_neg hpk, if_neg hpk, lookupCv_mapReplace a k v rest]

theorem lookupCv_insertCv (a k : ColumnVal) (v : List String)
    (m : List (ColumnVal × List String)) :
    lookupCv k (insertCv a v m) = if cvEq a k then some v else lookupCv k m := by
  unfold insertCv
  by_cases hin : m.any (fun p => cvEq p.1 a) = true
  · rw [if_pos hin, lookupCv_mapReplace]
    cases hl : lookupCv k m with
    | some w => rfl
    | none =>
      by_cases hak : cvEq a k = true
      · obtain ⟨p, hp, hpa⟩ := List.any_eq_true.1 hin
        have hpk : cvEq p.1 k = true := by
          rw [← cvEq_congr hak p.1]
          exact hpa
        rw [lookupCv_eq_none_iff] at hl
        rw [hl p hp] at hpk
        exact Bool.noConfusion hpk
      · rw [if_neg hak]
  · rw [if_neg hin, lookupCv_append, lookupCv_single]
    cases hl : lookupCv k m with
    | none => rfl
    | some w =>
      by_cases hak : cvEq a k = true
      · obtain ⟨p, hp, hpk⟩ := lookupCv_some_exists hl
        have hpa : cvEq p.1 a = true := by
          rw [cvEq_congr hak p.1]
          exact hpk
        exact absurd (List.any_eq_true.2 ⟨p, hp, hpa⟩) hin
      · simp [hak]

theorem lookupCv_restrict_aux (all : List (ColumnVal × List String)) :
    ∀ (actors : List ColumnVal) (acc : List (ColumnVal × List String))
      (k : ColumnVal),
      lookupCv k (actors.foldl (fun acc a =>
        match lookupCv a all with
        | some cs => insertCv a cs acc
        | none => acc) acc) =
      if (actors.any (fun a => cvEq a k) && (lookupCv k all).isSome) = true
      then lookupCv k all else lookupCv k acc
  | [], acc, k => by simp
  | a :: rest, acc, k => by
    rw [List.foldl_cons]
    rcases hla : lookupCv a all with _ | cs
    · rw [lookupCv_restrict_aux all rest acc k]
      by_cases hak : cvEq a k = true
      · have hkall : lookupCv k all = none := by
          rw [← lookupCv_congr hak all]
          exact hla
        simp [hkall]
      · have hf : cvEq a k = false := by
          cases h' : cvEq a k
          · rfl
          · exact absurd h' hak
        simp [hf]
    · rw [lookupCv_restrict_aux all rest (insertCv a cs acc) k]
      by_cases hrest : (rest.any (fun a => cvEq a k) &&
          (lookupCv k all).isSome) = true
      · rw [if_pos hrest, if_pos (by
          simp only [List.any_cons, Bool.and_eq_true, Bool.or_eq_true] at hrest ⊢
          exact ⟨Or.inr hrest.1, hrest.2⟩)]
      · rw [if_neg hrest, lookupCv_insertCv]
        by_cases hak : cvEq a k = true
        · have hkall : lookupCv k all = some cs := by
            rw [← lookupCv_congr hak all]
            exact hla
          rw [if_pos hak, if_pos (by
            simp only [List.any_cons, Bool.and_eq_true, Bool.or_eq_true, hkall]
            exact ⟨Or.inl hak, rfl⟩), hkall]
        · rw [if_neg hak, if_neg (by
            simp only [List.any_cons, Bool.and_eq_true, Bool.or_eq_true]
            rintro ⟨hor | hor, hsm⟩
            · exact absurd hor hak
            · exact hrest (by simp [hor, hsm]))]

theorem lookupCv_restrictToCohort (all : List (ColumnVal × List String))
    (actors : List ColumnVal) (k : ColumnVal) :
    lookupCv k (restrictToCohort all actors) =
      if actors.any (fun a => cvEq a k) then lookupCv k all else none := by
  unfold restrictToCohort
  rw [lookupCv_restrict_aux all actors [] k]
  by_cases hany : actors.any (fun a => cvEq a k) = true
  · cases hsm : lookupCv k all with
    | some w => simp [hany, hsm, lookupCv]
    | none => simp [hany, hsm, lookupCv]
  · simp [hany, lookupCv]

theorem build_connections_eq (group : List (String × Option ColumnVal))
    (all : List (ColumnVal × List String)) :
    build_connections group all =
      restrictToCohort all (group.map (fun p => ColumnVal.One p.1)) := by
  unfold build_connections restrictToCohort
  rw [List.foldl_map]

/-- Claim C6.  Every cohort entry produced by the orchestrator loop of
`genres_bfs` binds the cohort label to exactly the tuple
`(restricted mapping, builder graph of it, its BFS records, its BFS
average)`, where the restricted mapping answers lookups exactly for the
keys of the global mapping that are cohort members, each with its
unmodified neighbour list from the global mapping; and the age-bracket
variant `build_connections` is the same restriction keyed by the member
names. -/
theorem genresBfsCore_spec (cohorts : List (String × List ColumnVal))
    (hash : List (ColumnVal × List String)) (label : String)
    (tup : List (ColumnVal × List String) × Graph × List (Nat × Nat × Nat) × Nat)
    (hmem : (label, tup) ∈ genresBfsCore cohorts hash) :
    ∃ actors, (label, actors) ∈ cohorts ∧
      tup = (restrictToCohort hash actors,
        hash_graph (restrictToCohort hash actors),
        ((hash_graph (restrictToCohort hash actors)).bfs).1,
        ((hash_graph (restrictToCohort hash actors)).bfs).2) ∧
      (∀ k, lookupCv k (restrictToCohort hash actors) =
        if actors.any (fun a => cvEq a k) then lookupCv k hash else none) ∧
      (∀ group : List (String × Option ColumnVal),
        build_connections group hash =
          restrictToCohort hash (group.map (fun p => ColumnVal.One p.1))) := by
  unfold genresBfsCore at hmem
  rw [List.mem_map] at hmem
  obtain ⟨c, hc, heq⟩ := hmem
  injection heq with h1 h2
  subst h1
  refine ⟨c.2, hc, h2.symm, fun k => lookupCv_restrictToCohort hash c.2 k,
    fun group => build_connections_eq group hash⟩

/-- Witness for C6 at the concrete cohort list `[("x", [A])]` over the
mapping `{A ↦ [B], B ↦ []}`. -/
theorem genresBfsCore_spec_witness :
    (("x", (restrictToCohort
        [(ColumnVal.One "A", ["B"]), (ColumnVal.One "B", [])] [ColumnVal.One "A"],
      hash_graph (restrictToCohort
        [(ColumnVal.One "A", ["B"]), (ColumnVal.One "B", [])] [ColumnVal.One "A"]),
      ((hash_graph (restrictToCohort
        [(ColumnVal.One "A", ["B"]), (ColumnVal.One "B", [])]
        [ColumnVal.One "A"])).bfs).1,
      ((hash_graph (restrictToCohort
        [(ColumnVal.One "A", ["B"]), (ColumnVal.One "B", [])]
        [ColumnVal.One "A"])).bfs).2)) ∈
      genresBfsCore [("x", [ColumnVal.One "A"])]
        [(ColumnVal.One "A", ["B"]), (ColumnVal.One "B", [])]) ∧
      (∃ actors, ("x", actors) ∈ [("x", [ColumnVal.One "A"])] ∧
        (restrictToCohort
            [(ColumnVal.One "A", ["B"]), (ColumnVal.One "B", [])]
            [ColumnVal.One "A"],
          hash_graph (restrictToCohort
            [(ColumnVal.One "A", ["B"]), (ColumnVal.One "B", [])]
            [ColumnVal.One "A"]),
          ((hash_graph (restrictToCohort
            [(ColumnVal.One "A", ["B"]), (ColumnVal.One "B", [])]
            [ColumnVal.One "A"])).bfs).1,
          ((hash_graph (restrictToCohort
            [(ColumnVal.One "A", ["B"]), (ColumnVal.One "B", [])]
            [ColumnVal.One "A"])).bfs).2) =
          (restrictToCohort
            [(ColumnVal.One "A", ["B"]), (ColumnVal.One "B", [])] actors,
          hash_graph (restrictToCohort
            [(ColumnVal.One "A", ["B"]), (ColumnVal.One "B", [])] actors),
          ((hash_graph (restrictToCohort
            [(ColumnVal.One "A", ["B"]), (ColumnVal.One "B", [])] actors)).bfs).1,
          ((hash_graph (restrictToCohort
            [(ColumnVal.One "A", ["B"]), (ColumnVal.One "B", [])] actors)).bfs).2) ∧
        (∀ k, lookupCv k (restrictToCohort
            [(ColumnVal.One "A", ["B"]), (ColumnVal.One "B", [])] actors) =
          if actors.any (fun a => cvEq a k) then
            lookupCv k [(ColumnVal.One "A", ["B"]), (ColumnVal.One "B", [])]
          else none) ∧
        (∀ group : List (String × Option ColumnVal),
          build_connections group
              [(ColumnVal.One "A", ["B"]), (ColumnVal.One "B", [])] =
            restrictToCohort [(ColumnVal.One "A", ["B"]), (ColumnVal.One "B", [])]
              (group.map (fun p => ColumnVal.One p.1)))) :=
  ⟨List.mem_singleton.2 rfl,
    genresBfsCore_spec [("x", [ColumnVal.One "A"])]
      [(ColumnVal.One "A", ["B"]), (ColumnVal.One "B", [])] "x" _
      (List.mem_singleton.2 rfl)⟩

/-- Claim C8, counterexample.  The claim says an out-of-range attribute is
surfaced as an explicit error rather than silently truncated *or replaced
by a substitute value*.  `extract_val` does return an explicit error, but
the reporting call sites of `ages_bfs` apply `.unwrap_or_default()`, which
silently substitutes `0`: a single entity of age `2^32` is reported with
the boundary pair `(0, 0)`. -/
theorem extract_val_counterexample :
    extract_val (some ("a", some (ColumnVal.Two 4294967296))) =
      Except.error "Value out of i32 range" ∧
      extract_val_or_default (some ("a", some (ColumnVal.Two 4294967296))) = 0 ∧
      boundariesOf ((agesQuartiles
        [("a", some (ColumnVal.Two 4294967296))]).2.2.2) = (0, 0) ∧
      ageKey ("a", some (ColumnVal.Two 4294967296)) = 4294967296 :=
  ⟨rfl, rfl, by decide, rfl⟩

/-- Claim C8 (amended).  `extract_val` surfaces an out-of-range attribute as
an explicit error and never truncates (an in-range value is returned
exactly); at the reporting boundary the caller maps that error to the
default `0` rather than propagating it; and attribute values never
propagate into the graph computation: the sub-graph construction
`build_connections` depends only on the entity names, not on the ages. -/
theorem extract_val_boundary_spec (name : String) (v : Int)
    (group group' : List (String × Option ColumnVal))
    (all : List (ColumnVal × List String)) :
    (¬(-2147483648 ≤ v ∧ v ≤ 2147483647) →
      extract_val (some (name, some (ColumnVal.Two v))) =
        Except.error "Value out of i32 range") ∧
      ((-2147483648 ≤ v ∧ v ≤ 2147483647) →
        extract_val (some (name, some (ColumnVal.Two v))) = Except.ok v) ∧
      (∀ o e, extract_val o = Except.error e → extract_val_or_default o = 0) ∧
      (group.map Prod.fst = group'.map Prod.fst →
        build_connections group all = build_connections group' all) := by
  refine ⟨?_, ?_, ?_, ?_⟩
  · intro h
    show (if -2147483648 ≤ v ∧ v ≤ 2147483647 then Except.ok v
      else Except.error "Value out of i32 range") =
      Except.error "Value out of i32 range"
    rw [if_neg h]
  · intro h
    show (if -2147483648 ≤ v ∧ v ≤ 2147483647 then Except.ok v
      else Except.error "Value out of i32 range") = Except.ok v
    rw [if_pos h]
  · intro o e h
    unfold extract_val_or_default
    rw [h]
  · intro h
    rw [build_connections_eq, build_connections_eq]
    have hmap : ∀ g : List (String × Option ColumnVal),
        g.map (fun p => ColumnVal.One p.1) = (g.map Prod.fst).map ColumnVal.One := by
      intro g
      rw [List.map_map]
      rfl
    rw [hmap, hmap, h]

/-- Witness for C8 (amended) at concrete inputs: age `2^31` errors, age
`42` extracts exactly, and two groups with equal names but different ages
build the same connection mapping. -/
theorem extract_val_boundary_spec_witness :
    (extract_val (some ("a", some (ColumnVal.Two 2147483648))) =
      Except.error "Value out of i32 range") ∧
      (extract_val (some ("a", some (ColumnVal.Two 42))) = Except.ok 42) ∧
      (build_connections [("a", some (ColumnVal.Two 1))] [] =
        build_connections [("a", none)] []) :=
  ⟨(extract_val_boundary_spec "a" 2147483648 [] [] []).1 (by decide),
    (extract_val_boundary_spec "a" 42 [] [] []).2.1 (by decide),
    (extract_val_boundary_spec "a" 1 [("a", some (ColumnVal.Two 1))]
      [("a", none)] []).2.2.2 rfl⟩

theorem head?_min (l : List (String × Option ColumnVal)) (hs : l.Sorted ageLe)
    (p0 : String × Option ColumnVal) (h0 : l.head? = some p0) :
    p0 ∈ l ∧ ∀ p ∈ l, ageKey p0 ≤ ageKey p := by
  cases l with
  | nil => exact absurd h0 (by simp)
  | cons a t =>
    have ha : p0 = a := by
      simp only [List.head?_cons, Option.some.injEq] at h0
      exact h0.symm
    subst ha
    refine ⟨List.mem_cons_self _ _, ?_⟩
    intro p hp
    rcases List.mem_cons.1 hp with rfl | hp'
    · exact le_refl _
    · exact List.rel_of_sorted_cons hs p hp'

theorem getLast?_max :
    ∀ (l : List (String × Option ColumnVal)), l.Sorted ageLe →
      ∀ (p1 : String × Option ColumnVal), l.getLast? = some p1 →
      p1 ∈ l ∧ ∀ p ∈ l, ageKey p ≤ ageKey p1
  | [], _, p1, h1 => absurd h1 (by simp)
  | [a], _, p1, h1 => by
    have ha : p1 = a := by
      simp only [List.getLast?_singleton, Option.some.injEq] at h1
      exact h1.symm
    subst ha
    refine ⟨List.mem_singleton.2 rfl, ?_⟩
    intro p hp
    rw [List.mem_singleton] at hp
    rw [hp]
  | a :: b :: t, hs, p1, h1 => by
    rw [List.getLast?_cons_cons] at h1
    obtain ⟨hmem, hle⟩ := getLast?_max (b :: t) hs.of_cons p1 h1
    refine ⟨List.mem_cons_of_mem _ hmem, ?_⟩
    intro p hp
    rcases List.mem_cons.1 hp with rfl | hp'
    · exact le_trans (List.rel_of_sorted_cons hs p1 hmem) (le_refl _)
    · exact hle p hp'

theorem boundaries_spec (gr : List (String × Option ColumnVal))
    (hs : gr.Sorted ageLe)
    (hin : ∀ p ∈ gr, ∃ name v, p = (name, some (ColumnVal.Two v)) ∧
      0 < v ∧ v ≤ 2147483647)
    (hne : gr ≠ []) :
    (∃ p ∈ gr, ageKey p = (boundariesOf gr).1) ∧
      (∃ p ∈ gr, ageKey p = (boundariesOf gr).2) ∧
      ∀ p ∈ gr, (boundariesOf gr).1 ≤ ageKey p ∧ ageKey p ≤ (boundariesOf gr).2 := by
  have hval : ∀ p ∈ gr, extract_val_or_default (some p) = ageKey p := by
    intro p hp
    obtain ⟨name, v, rfl, hpos, hmax⟩ := hin p hp
    unfold extract_val_or_default
    have : extract_val (some (name, some (ColumnVal.Two v))) = Except.ok v := by
      show (if -2147483648 ≤ v ∧ v ≤ 2147483647 then Except.ok v
        else Except.error "Value out of i32 range") = Except.ok v
      rw [if_pos ⟨by omega, hmax⟩]
    rw [this]
    rfl
  obtain ⟨p0, h0⟩ : ∃ p0, gr.head? = some p0 := by
    cases gr with
    | nil => exact absurd rfl hne
    | cons a t => exact ⟨a, rfl⟩
  obtain ⟨p1, h1⟩ : ∃ p1, gr.getLast? = some p1 := by
    cases hgl : gr.getLast? with
    | some p1 => exact ⟨p1, rfl⟩
    | none => exact absurd (List.getLast?_eq_none_iff.1 hgl) hne
  obtain ⟨hm0, hmin⟩ := head?_min gr hs p0 h0
  obtain ⟨hm1, hmax⟩ := getLast?_max gr hs p1 h1
  have hb : boundariesOf gr = (ageKey p0, ageKey p1) := by
    unfold boundariesOf
    rw [h0, h1, hval p0 hm0, hval p1 hm1]
  rw [hb]
  exact ⟨⟨p0, hm0, rfl⟩, ⟨p1, hm1, rfl⟩, fun p hp => ⟨hmin p hp, hmax p hp⟩⟩

/-- Claim C7, counterexample.  The claim quantifies over every list of
entities with positive numeric attributes and says each group's
`(min, max)` pair is reported.  A single entity with the positive attribute
`2^31` (just above `i32::MAX`) lands alone in the last group, but the
report is `(0, 0)` — `extract_val` rejects the out-of-range value and
`.unwrap_or_default()` replaces it with `0` — not the group's actual
`(min, max) = (2^31, 2^31)`. -/
theorem ages_quartiles_counterexample :
    (agesQuartiles [("a", some (ColumnVal.Two 2147483648))]).2.2.2 =
      [("a", some (ColumnVal.Two 2147483648))] ∧
      boundariesOf ((agesQuartiles
        [("a", some (ColumnVal.Two 2147483648))]).2.2.2) = (0, 0) ∧
      ageKey ("a", some (ColumnVal.Two 2147483648)) = 2147483648 ∧
      ¬ ((0 : Int) = 2147483648) :=
  ⟨by decide, by decide, rfl, by decide⟩

/-- Claim C7 (amended).  For every list of entities with positive numeric
attributes *representable as `i32`*, quartile partitioning sorts the
entities ascending by attribute and splits them into four contiguous groups
of size `total / 4` each, any remainder attached to the last group, and
reports each nonempty group's `(min, max)` attribute pair; concretely, the
8 entities with attributes `5,10,...,40` produce four groups of 2 with the
boundary pairs `(5,10)`, `(15,20)`, `(25,30)`, `(35,40)`.  (Without the
`i32` bound the report substitutes `0`, see the counterexample.) -/
theorem ages_quartiles_spec (aa : List (String × Option ColumnVal))
    (hall : ∀ p ∈ aa, ∃ name v, p = (name, some (ColumnVal.Two v)) ∧
      0 < v ∧ v ≤ 2147483647) :
    (agesFilterSort aa).Perm aa ∧
      (agesFilterSort aa).Sorted ageLe ∧
      (agesQuartiles aa).1.length = aa.length / 4 ∧
      (agesQuartiles aa).2.1.length = aa.length / 4 ∧
      (agesQuartiles aa).2.2.1.length = aa.length / 4 ∧
      (agesQuartiles aa).2.2.2.length = aa.length - 3 * (aa.length / 4) ∧
      (agesQuartiles aa).1 ++ ((agesQuartiles aa).2.1 ++
        ((agesQuartiles aa).2.2.1 ++ (agesQuartiles aa).2.2.2)) =
        agesFilterSort aa ∧
      (∀ gr ∈ [(agesQuartiles aa).1, (agesQuartiles aa).2.1,
          (agesQuartiles aa).2.2.1, (agesQuartiles aa).2.2.2],
        gr ≠ [] →
          (∃ p ∈ gr, ageKey p = (boundariesOf gr).1) ∧
            (∃ p ∈ gr, ageKey p = (boundariesOf gr).2) ∧
            ∀ p ∈ gr, (boundariesOf gr).1 ≤ ageKey p ∧
              ageKey p ≤ (boundariesOf gr).2) ∧
      ((agesQuartiles agesExample8).1.length = 2 ∧
        (agesQuartiles agesExample8).2.1.length = 2 ∧
        (agesQuartiles agesExample8).2.2.1.length = 2 ∧
        (agesQuartiles agesExample8).2.2.2.length = 2 ∧
        boundariesOf (agesQuartiles agesExample8).1 = (5, 10) ∧
        boundariesOf (agesQuartiles agesExample8).2.1 = (15, 20) ∧
        boundariesOf (agesQuartiles agesExample8).2.2.1 = (25, 30) ∧
        boundariesOf (agesQuartiles agesExample8).2.2.2 = (35, 40)) := by
  have hfilter : aa.filter (fun p => match p.2 with
      | some (ColumnVal.Two v) => decide (0 < v)
      | _ => false) = aa := by
    rw [List.filter_eq_self]
    intro p hp
    obtain ⟨name, v, rfl, hpos, _⟩ := hall p hp
    simpa using hpos
  have hperm : (agesFilterSort aa).Perm aa := by
    unfold agesFilterSort
    rw [hfilter]
    exact List.perm_insertionSort ageLe aa
  have hsorted : (agesFilterSort aa).Sorted ageLe :=
    List.sorted_insertionSort ageLe _
  have hslen : (agesFilterSort aa).length = aa.length := hperm.length_eq
  have hq4 : aa.length / 4 * 4 ≤ aa.length := Nat.div_mul_le_self _ _
  have hsub : ∀ gr ∈ [(agesQuartiles aa).1, (agesQuartiles aa).2.1,
      (agesQuartiles aa).2.2.1, (agesQuartiles aa).2.2.2],
      gr.Sublist (agesFilterSort aa) := by
    intro gr hgr
    simp only [List.mem_cons, List.not_mem_nil, or_false] at hgr
    rcases hgr with rfl | rfl | rfl | rfl
    · exact List.take_sublist _ _
    · exact (List.take_sublist _ _).trans (List.drop_sublist _ _)
    · exact (List.take_sublist _ _).trans (List.drop_sublist _ _)
    · exact List.drop_sublist _ _
  refine ⟨hperm, hsorted, ?_, ?_, ?_, ?_, ?_, ?_, ?_⟩
  · show ((agesFilterSort aa).take ((agesFilterSort aa).length / 4)).length =
      aa.length / 4
    rw [List.length_take, hslen]
    omega
  · show (((agesFilterSort aa).drop ((agesFilterSort aa).length / 4)).take
      ((agesFilterSort aa).length / 4)).length = aa.length / 4
    rw [List.length_take, List.length_drop, hslen]
    omega
  · show (((agesFilterSort aa).drop (2 * ((agesFilterSort aa).length / 4))).take
      ((agesFilterSort aa).length / 4)).length = aa.length / 4
    rw [List.length_take, List.length_drop, hslen]
    omega
  · show ((agesFilterSort aa).drop
      (3 * ((agesFilterSort aa).length / 4))).length =
      aa.length - 3 * (aa.length / 4)
    rw [List.length_drop, hslen]
  · show (agesFilterSort aa).take ((agesFilterSort aa).length / 4) ++
      ((((agesFilterSort aa).drop ((agesFilterSort aa).length / 4)).take
          ((agesFilterSort aa).length / 4)) ++
        ((((agesFilterSort aa).drop
            (2 * ((agesFilterSort aa).length / 4))).take
          ((agesFilterSort aa).length / 4)) ++
          (agesFilterSort aa).drop (3 * ((agesFilterSort aa).length / 4)))) =
      agesFilterSort aa
    have h34 : ∀ l : List (String × Option ColumnVal), ∀ n : Nat,
        (l.drop (2 * n)).take n ++ l.drop (3 * n) =
          l.drop (2 * n) := by
      intro l n
      have : l.drop (3 * n) = (l.drop (2 * n)).drop n := by
        rw [List.drop_drop]
        congr 1
        omega
      rw [this, List.take_append_drop]
    have h23 : ∀ l : List (String × Option ColumnVal), ∀ n : Nat,
        (l.drop n).take n ++ l.drop (2 * n) = l.drop n := by
      intro l n
      have : l.drop (2 * n) = (l.drop n).drop n := by
        rw [List.drop_drop]
        congr 1
        omega
      rw [this, List.take_append_drop]
    rw [h34, h23, List.take_append_drop]
  · intro gr hgr hne
    have hgrsub := hsub gr hgr
    refine boundaries_spec gr (hsorted.sublist hgrsub) ?_ hne
    intro p hp
    exact hall p (hperm.subset (hgrsub.subset hp))
  · exact ⟨by decide, by decide, by decide, by decide, by decide, by decide,
      by decide, by decide⟩

/-- Witness for C7 (amended) at the concrete 8-entity example. -/
theorem ages_quartiles_spec_witness :
    (∀ p ∈ agesExample8, ∃ name v, p = (name, some (ColumnVal.Two v)) ∧
      0 < v ∧ v ≤ 2147483647) ∧
      (agesFilterSort agesExample8).Perm agesExample8 ∧
      boundariesOf (agesQuartiles agesExample8).1 = (5, 10) := by
  have hall : ∀ p ∈ agesExample8, ∃ name v, p = (name, some (ColumnVal.Two v)) ∧
      0 < v ∧ v ≤ 2147483647 := by
    intro p hp
    simp only [agesExample8, List.mem_cons, List.not_mem_nil, or_false] at hp
    rcases hp with rfl | rfl | rfl | rfl | rfl | rfl | rfl | rfl <;>
      exact ⟨_, _, rfl, by decide, by decide⟩
  exact ⟨hall, (ages_quartiles_spec agesExample8 hall).1,
    (ages_quartiles_spec agesExample8 hall).2.2.2.2.2.2.2.2.2.2.2.2.1⟩

end DS210
